import Mathlib

/-!
Verification development for the desuarchive-mlp-backup fetch-and-reconcile
engine.  The definitions below are shallow embeddings of the JavaScript
sources:

* `src/unnamed/part_003` (ffUtils.js): `getSource`, `getPriority`,
  `fetchThreadSearch`, `fetchThreadChunked`, `fetchThreadInner`,
  `setSourceAndDeDBfy`, the ghost-stripping loop of `fetchThread`;
* `src/downloader.js`: the `addPost` closure and the `downloadChunk` driver;
* `src/reCheck.js`: its `addPost` closure, `transformNDJSON`, and the
  tail of `main` (temporary file + rename);
* `src/unnamed/part_001`: the release wrapper script computing the
  before/after hashes around a reCheck run.

Modelling conventions, stated once:
* JS strings holding decimal post ids (`post.num`, `thread_num`) are
  modelled as `Nat`; every consumer in the source immediately applies
  `parseInt`, so the `Nat` is the value all decisions are made on.
* The comment fields (`comment`, `comment_sanitized`, `comment_processed`)
  and the functions that only rewrite them (`deDBfy`, `processComment`,
  the chunked endpoint's boolean-field repair) are elided: no claim under
  verification inspects comment text.
* Network effects are oracles: a run is a pure function of the responses
  the endpoints would give.  `ApiResp.netFail` stands for a `myFetch`
  call that throws (transport failure persisting past the retry cap, or a
  disallowed status on every attempt).
* The search cursor `ffDate(new Date(maxTS * 1000))` is an injective
  rendering of the timestamp; the model passes the timestamp itself.
* JS `Map`s are association lists with `assocSet` (replace-in-place on an
  existing key, append otherwise), matching `Map.set` up to iteration
  order, which every consumer destroys by sorting on the key.
-/

namespace DMB

/-- The three archive hosts. -/
inductive Site where
  | desu  -- desuarchive.org, primary
  | b4k   -- arch.b4k.dev, secondary
  | moe   -- archived.moe, tertiary
deriving DecidableEq, Repr, BEq

/-- One element of a post's `extra_data` array: either an object carrying a
`source` field, or anything else. -/
inductive Tag where
  | src (s : Site)
  | other
deriving DecidableEq, Repr, BEq

/-- Minimal FoolFuuka post (`MinimalFFPost`); comment fields elided. -/
structure Post where
  num : Nat
  subnum : String
  thread_num : Nat
  timestamp : Nat
  extra_data : Option (List Tag)
deriving DecidableEq, Repr, BEq

/-- The placeholder records `{num, exception, timestamp}` written for
unrecoverable post numbers. -/
structure ExcRec where
  num : Nat
  exception : String
  timestamp : Nat
deriving DecidableEq, Repr, BEq

/-- A merge-store entry: a real post, or a missing placeholder (the JS code
distinguishes the two by `'exception' in post`). -/
inductive Entry where
  | post (p : Post)
  | exc (e : ExcRec)
deriving DecidableEq, Repr, BEq

def Entry.num : Entry → Nat
  | .post p => p.num
  | .exc e => e.num

def Entry.isExc : Entry → Bool
  | .post _ => false
  | .exc _ => true

/-- `'subnum' in post && post.subnum !== '0'`: placeholders have no `subnum`
field, so only real posts can be ghosts. -/
def Entry.isGhost : Entry → Bool
  | .post p => p.subnum != "0"
  | .exc _ => false

/-- The predicate of the `find` call in ffUtils `getSource`: the entry is
truthy and its `source` field is one of the two mirror hosts (a
`desuarchive.org` tag is not matched). -/
def isMirrorTag : Tag → Bool
  | .src .b4k => true
  | .src .moe => true
  | _ => false

/-- ffUtils `getSource`: the first `extra_data` entry whose `source` is a
recognized mirror decides the source; otherwise the primary host. -/
def getSource (p : Post) : Site :=
  match (p.extra_data.getD []).find? isMirrorTag with
  | some (.src s) => s
  | _ => Site.desu

/-- The `PRIORITY` table of ffUtils. -/
def sitePriority : Site → Nat
  | .desu => 3
  | .b4k => 2
  | .moe => 1

/-- ffUtils `getPriority` applied to a post. -/
def getPriority (p : Post) : Nat :=
  sitePriority (getSource p)

/-- Modelled from the spec: "A Post's *effective source* is the last entry in
`provenance`, or the primary source if empty" — the last `extra_data` entry
carrying a recognized source field, defaulting to the primary host.  Written
from the spec's words, for comparison with `getSource` (which the code
implements). -/
def lastTagSource (p : Post) : Site :=
  match ((p.extra_data.getD []).filter isMirrorTag).getLast? with
  | some (.src s) => s
  | _ => Site.desu

/-- The amended reading of the effective-source rule: the *first* recognized
source tag decides, defaulting to the primary host. -/
def firstTagSource (p : Post) : Site :=
  match ((p.extra_data.getD []).filter isMirrorTag).head? with
  | some (.src s) => s
  | _ => Site.desu

/-- A post used only to exhibit behaviour on two provenance tags. -/
def postTwoTags : Post :=
  { num := 10, subnum := "0", thread_num := 10, timestamp := 0,
    extra_data := some [Tag.src Site.b4k, Tag.src Site.moe] }

section SourceLemmas

theorem find?_isMirrorTag_eq_head_filter (l : List Tag) :
    l.find? isMirrorTag = (l.filter isMirrorTag).head? := by
  induction l with
  | nil => rfl
  | cons t rest ih =>
    cases h : isMirrorTag t with
    | true => rw [List.find?_cons_of_pos _ h, List.filter_cons_of_pos h]; rfl
    | false =>
      rw [List.find?_cons_of_neg, List.filter_cons_of_neg, ih]
      · simp [h]
      · simp [h]

end SourceLemmas

/-- C5: the claim says the effective source is the *last* provenance tag.
`getSource` uses `Array.prototype.find`, which returns the *first* matching
entry: on a post tagged `[arch.b4k.dev, archived.moe]` the code answers
`arch.b4k.dev` while the last tag is `archived.moe`. -/
theorem getSource_not_last_tag :
    getSource postTwoTags = Site.b4k ∧ lastTagSource postTwoTags = Site.moe ∧
      getSource postTwoTags ≠ lastTagSource postTwoTags := by
  decide

/-- C5 (amended): for every post, the effective source computed by
`getSource` (and hence `getPriority`) is the *first* recognized source tag in
`extra_data`, defaulting to the primary source when the list is absent, empty,
or has no recognized tag. -/
theorem getSource_eq_firstTagSource :
    ∀ p : Post, getSource p = firstTagSource p ∧
      getPriority p = sitePriority (firstTagSource p) ∧
      (p.extra_data = none ∨ p.extra_data = some [] → getSource p = Site.desu) := by
  intro p
  have hfind : getSource p = firstTagSource p := by
    unfold getSource firstTagSource
    rw [find?_isMirrorTag_eq_head_filter]
  refine ⟨hfind, by rw [getPriority, hfind], ?_⟩
  rintro (h | h) <;> simp [getSource, h]

/-! ## Merge stores

`downloader.js` keeps `downloaded : Map<number, Post | Placeholder>`;
`reCheck.js` keeps `downloaded : Map<number, Post>`.  Both are modelled as
association lists; `assocSet` is `Map.set`. -/

def assocSet {β : Type} (m : List (Nat × β)) (k : Nat) (v : β) : List (Nat × β) :=
  if m.any (fun kv => kv.1 = k) then
    m.map (fun kv => if kv.1 = k then (k, v) else kv)
  else m ++ [(k, v)]

/-- `Map.get`: the value stored at key `n`. -/
def alookup {β : Type} (n : Nat) : List (Nat × β) → Option β
  | [] => none
  | kv :: rest => if kv.1 = n then some kv.2 else alookup n rest

abbrev Store := List (Nat × Entry)

abbrev PStore := List (Nat × Post)

def storeGet (st : Store) (n : Nat) : Option Entry := alookup n st

/-- `Map.get(num)` followed by `existing && !('exception' in existing)`. -/
def existsReal (st : Store) (n : Nat) : Bool :=
  match storeGet st n with
  | some e => !e.isExc
  | none => false

/-- The provenance append of downloader.js `addPost` (and of ffUtils
`setSourceAndDeDBfy`): `extraData = post.extra_data || []`, push
`{source: site}`. -/
def pushSourceTag (p : Post) (site : Site) : Post :=
  { p with extra_data := some ((p.extra_data.getD []) ++ [Tag.src site]) }

/-- downloader.js `addPost` (the closure over `downloaded`, `start`, `end`):
ghost skip, window clipping, the non-primary no-overwrite guard, the
placeholder merge rule, and the provenance tag push. -/
def dlAddPost (start end_ : Nat) (st : Store) (entry : Entry) (site : Site) :
    Store :=
  if entry.isGhost then st
  else if entry.num < start then st
  else if site ≠ Site.desu ∧ (end_ < entry.num ∨ existsReal st entry.num = true)
  then st
  else
    match storeGet st entry.num with
    | none => assocSet st entry.num entry
    | some existing =>
      match entry with
      | .exc e =>
        match existing with
        | .post _ => st
        | .exc e0 =>
          if e0.exception = e.exception then st
          else assocSet st entry.num (.exc e)
      | .post p =>
        if site ≠ Site.desu then assocSet st entry.num (.post (pushSourceTag p site))
        else assocSet st entry.num (.post p)

/-- reCheck.js `addPost`: store when empty, else overwrite exactly when
`getPriority(site) >= getPriority(existing)`. -/
def rcAddPost (st : PStore) (p : Post) (site : Site) : PStore :=
  match alookup p.num st with
  | none => assocSet st p.num p
  | some existing =>
    if sitePriority site ≥ getPriority existing then assocSet st p.num p
    else st

/-- ffUtils `setSourceAndDeDBfy` restricted to the fields we model: identity
for the primary source, provenance tag push otherwise (`deDBfy` only rewrites
the elided comment field). -/
def setSourceAndDeDBfy (p : Post) (site : Site) : Post :=
  if site = Site.desu then p else pushSourceTag p site

/-- One value of the FoolFuuka thread response: `{op?, posts?}`; the `posts`
record is modelled as a list in iteration order. -/
structure ThreadEntry where
  op : Option Post
  posts : List Post
deriving DecidableEq, Repr, BEq

abbrev ThreadMap := List ThreadEntry

/-- The ghost-stripping / source-tagging loop at the end of ffUtils
`fetchThread`: drop a ghost `op`, drop ghost replies, tag the remainder. -/
def stripEntry (site : Site) (te : ThreadEntry) : ThreadEntry :=
  { op := match te.op with
      | some op => if op.subnum != "0" then none
                   else some (setSourceAndDeDBfy op site)
      | none => none,
    posts := (te.posts.filter (fun p => p.subnum == "0")).map
      (fun p => setSourceAndDeDBfy p site) }

def stripThread (site : Site) (tm : ThreadMap) : ThreadMap :=
  tm.map (stripEntry site)

section StoreLemmas

theorem alookup_map_set {β : Type} (k : Nat) (v : β) :
    ∀ m : List (Nat × β), m.any (fun kv => kv.1 = k) = true →
      alookup k (m.map (fun kv => if kv.1 = k then (k, v) else kv)) = some v := by
  intro m
  induction m with
  | nil => intro h; simp at h
  | cons kv rest ih =>
    intro h
    by_cases hk : kv.1 = k
    · simp [alookup, hk]
    · rw [List.any_cons, Bool.or_eq_true] at h
      have hrest : rest.any (fun kv => kv.1 = k) = true := by
        rcases h with h | h
        · exact absurd (of_decide_eq_true h) hk
        · exact h
      simp [alookup, hk, ih hrest]

theorem alookup_append_right {β : Type} (k : Nat) (l : List (Nat × β)) :
    ∀ m : List (Nat × β), m.any (fun kv => kv.1 = k) = false →
      alookup k (m ++ l) = alookup k l := by
  intro m
  induction m with
  | nil => intro _; rfl
  | cons kv rest ih =>
    intro h
    rw [List.any_cons, Bool.or_eq_false_iff] at h
    obtain ⟨h1, h2⟩ := h
    have hk : ¬ kv.1 = k := by simpa using h1
    simp [List.cons_append, alookup, hk, ih h2]

theorem alookup_assocSet_self {β : Type} (m : List (Nat × β)) (k : Nat) (v : β) :
    alookup k (assocSet m k v) = some v := by
  unfold assocSet
  by_cases h : m.any (fun kv => kv.1 = k) = true
  · rw [if_pos h]; exact alookup_map_set k v m h
  · have h' : m.any (fun kv => kv.1 = k) = false := by
      cases hh : m.any (fun kv => kv.1 = k)
      · rfl
      · exact absurd hh h
    rw [if_neg (by rw [h']; exact Bool.false_ne_true)]
    rw [alookup_append_right k _ m h']
    simp [alookup]

theorem mem_assocSet {β : Type} (m : List (Nat × β)) (k : Nat) (v : β) :
    ∀ kv ∈ assocSet m k v, kv ∈ m ∨ kv = (k, v) := by
  intro kv hkv
  unfold assocSet at hkv
  split at hkv
  · rcases List.mem_map.mp hkv with ⟨kv0, hkv0, heq⟩
    split at heq
    · right; exact heq.symm
    · left; exact heq ▸ hkv0
  · rcases List.mem_append.mp hkv with h1 | h1
    · exact Or.inl h1
    · right; simpa using h1

end StoreLemmas

/-! ## C4 / C9 concrete inputs -/

def postMoeTagged : Post :=
  { num := 5, subnum := "0", thread_num := 5, timestamp := 100,
    extra_data := some [Tag.src Site.moe] }

def postFromB4k : Post :=
  { num := 5, subnum := "0", thread_num := 5, timestamp := 200,
    extra_data := none }

def storeWithMoe : Store := [(5, Entry.post postMoeTagged)]

def ghostPost : Post :=
  { num := 7, subnum := "1", thread_num := 3, timestamp := 50,
    extra_data := none }

/-- C4: with both entries real Posts, the claim wants overwrite exactly when
`priority(source) >= priority(existing)`.  downloader.js `addPost` returns
early for every non-primary source whenever the existing entry is a real
Post: an `arch.b4k.dev` candidate (priority 2) does not overwrite an
`archived.moe`-sourced entry (priority 1). -/
theorem dlAddPost_not_priority_monotone :
    sitePriority Site.b4k ≥ getPriority postMoeTagged ∧
      dlAddPost 1 10 storeWithMoe (Entry.post postFromB4k) Site.b4k
        = storeWithMoe := by
  decide

/-- C4 (amended): reCheck.js `addPost` overwrites exactly when
`priority(source) >= priority(existing)` (equal priority still overwrites);
downloader.js `addPost`, on two real Posts inside the window, overwrites
exactly when the source is the primary one — a non-primary candidate never
replaces a stored real Post, whatever the priorities. -/
theorem addPost_overwrite_rules :
    (∀ (st : PStore) (p ex : Post) (site : Site),
        alookup p.num st = some ex →
        alookup p.num (rcAddPost st p site) =
          some (if sitePriority site ≥ getPriority ex then p else ex))
    ∧ (∀ (start end_ : Nat) (st : Store) (p ex : Post) (site : Site),
        storeGet st p.num = some (.post ex) →
        p.subnum = "0" → start ≤ p.num → p.num ≤ end_ →
        storeGet (dlAddPost start end_ st (.post p) site) p.num =
          some (if site = Site.desu then Entry.post p else Entry.post ex)) := by
  constructor
  · intro st p ex site hex
    unfold rcAddPost
    rw [hex]
    by_cases hge : sitePriority site ≥ getPriority ex
    · simp [hge, alookup_assocSet_self]
    · simp [hge, hex]
  · intro start end_ st p ex site hex hsub hs he
    unfold dlAddPost
    have hghost : Entry.isGhost (.post p) = false := by
      simp [Entry.isGhost, hsub]
    have hnum : Entry.num (.post p) = p.num := rfl
    rw [hghost]
    simp only [Bool.false_eq_true, if_false, hnum]
    have h1 : ¬ p.num < start := by omega
    rw [if_neg h1]
    have hreal : existsReal st p.num = true := by
      simp [existsReal, hex, Entry.isExc]
    by_cases hsite : site = Site.desu
    · have hc : ¬ (site ≠ Site.desu ∧
          (end_ < p.num ∨ existsReal st p.num = true)) := by
        simp [hsite]
      rw [if_neg hc]
      rw [show storeGet st p.num = some (Entry.post ex) from hex]
      simp [hsite, storeGet, alookup_assocSet_self]
    · have hc : site ≠ Site.desu ∧
          (end_ < p.num ∨ existsReal st p.num = true) := ⟨hsite, Or.inr hreal⟩
      rw [if_pos hc]
      simp [hsite, hex]

/-- Witness for `addPost_overwrite_rules` at concrete inputs: the b4k
candidate overwrites in reCheck (2 ≥ 1) but not in the downloader. -/
theorem addPost_overwrite_rules_witness :
    (alookup 5 (rcAddPost [(5, postMoeTagged)] postFromB4k Site.b4k) =
        some (if sitePriority Site.b4k ≥ getPriority postMoeTagged then
          postFromB4k else postMoeTagged))
    ∧ (storeGet (dlAddPost 1 10 storeWithMoe (Entry.post postFromB4k)
          Site.b4k) 5 =
        some (if Site.b4k = Site.desu then Entry.post postFromB4k
          else Entry.post postMoeTagged)) :=
  ⟨addPost_overwrite_rules.1 [(5, postMoeTagged)] postFromB4k postMoeTagged
      Site.b4k (by decide),
   addPost_overwrite_rules.2 1 10 storeWithMoe postFromB4k postMoeTagged
      Site.b4k (by decide) (by decide) (by decide) (by decide)⟩

/-- C9: reCheck.js `addPost` performs no `subnum` check: a ghost candidate
(`subnum = "1"`) is stored, so "addPost leaves the merge store unchanged"
fails for that implementation. -/
theorem rcAddPost_stores_ghost :
    ghostPost.subnum ≠ "0" ∧
      alookup 7 (rcAddPost [] ghostPost Site.desu) = some ghostPost := by
  decide

theorem subnum_setSourceAndDeDBfy (p : Post) (site : Site) :
    (setSourceAndDeDBfy p site).subnum = p.subnum := by
  unfold setSourceAndDeDBfy pushSourceTag
  by_cases hs : site = Site.desu <;> simp [hs]

/-- C9 (amended): downloader.js `addPost` rejects every ghost candidate; the
ffUtils thread resolver strips ghost replies (op and replies) before
returning; and a downloader store containing no ghosts never acquires one
through `addPost` — reCheck.js `addPost` itself checks nothing, but the
thread-derived candidates it receives are already ghost-free. -/
theorem ghost_exclusion :
    (∀ (start end_ : Nat) (st : Store) (e : Entry) (site : Site),
        e.isGhost = true → dlAddPost start end_ st e site = st)
    ∧ (∀ (site : Site) (tm : ThreadMap), ∀ te ∈ stripThread site tm,
        (∀ op, te.op = some op → op.subnum = "0")
        ∧ (∀ p ∈ te.posts, p.subnum = "0"))
    ∧ (∀ (start end_ : Nat) (st : Store) (e : Entry) (site : Site),
        (∀ kv ∈ st, Entry.isGhost kv.2 = false) →
        ∀ kv ∈ dlAddPost start end_ st e site, Entry.isGhost kv.2 = false) := by
  refine ⟨?_, ?_, ?_⟩
  · intro start end_ st e site hg
    unfold dlAddPost
    rw [hg]
    simp
  · intro site tm te hte
    rcases List.mem_map.mp hte with ⟨te0, _, rfl⟩
    constructor
    · intro op hop
      have hop' : (match te0.op with
          | some op0 => if (op0.subnum != "0") = true then none
                        else some (setSourceAndDeDBfy op0 site)
          | none => none) = some op := hop
      cases hop0 : te0.op with
      | none => rw [hop0] at hop'; exact absurd hop' (by simp)
      | some op0 =>
        rw [hop0] at hop'
        have hop2 : (if (op0.subnum != "0") = true then (none : Option Post)
            else some (setSourceAndDeDBfy op0 site)) = some op := hop'
        by_cases hg : (op0.subnum != "0") = true
        · rw [if_pos hg] at hop2; exact absurd hop2 (by simp)
        · rw [if_neg hg] at hop2
          have hsub : op0.subnum = "0" := by simpa using hg
          have hopeq : setSourceAndDeDBfy op0 site = op :=
            Option.some_inj.mp hop2
          rw [← hopeq, subnum_setSourceAndDeDBfy, hsub]
    · intro p hp
      have hp' : p ∈ (te0.posts.filter (fun q => q.subnum == "0")).map
          (fun q => setSourceAndDeDBfy q site) := hp
      rcases List.mem_map.mp hp' with ⟨p0, hp0, rfl⟩
      have hsub : p0.subnum = "0" := by
        have := List.of_mem_filter hp0
        simpa using this
      rw [subnum_setSourceAndDeDBfy, hsub]
  · intro start end_ st e site hinv kv hkv
    unfold dlAddPost at hkv
    by_cases hg : e.isGhost = true
    · rw [hg] at hkv; simp at hkv; exact hinv kv hkv
    · have hg' : e.isGhost = false := by
        simpa using hg
      rw [hg'] at hkv
      simp only [Bool.false_eq_true, if_false] at hkv
      by_cases h1 : e.num < start
      · rw [if_pos h1] at hkv; exact hinv kv hkv
      · rw [if_neg h1] at hkv
        by_cases h2 : site ≠ Site.desu ∧
            (end_ < e.num ∨ existsReal st e.num = true)
        · rw [if_pos h2] at hkv; exact hinv kv hkv
        · rw [if_neg h2] at hkv
          cases hget : storeGet st e.num with
          | none =>
            rw [hget] at hkv
            rcases mem_assocSet _ _ _ kv hkv with h | rfl
            · exact hinv kv h
            · exact hg'
          | some existing =>
            rw [hget] at hkv
            cases e with
            | exc ex =>
              cases existing with
              | post p0 => exact hinv kv hkv
              | exc e0 =>
                have hkv2 : kv ∈ (if e0.exception = ex.exception then st
                    else assocSet st (Entry.exc ex).num (Entry.exc ex)) := hkv
                by_cases heq : e0.exception = ex.exception
                · rw [if_pos heq] at hkv2; exact hinv kv hkv2
                · rw [if_neg heq] at hkv2
                  rcases mem_assocSet _ _ _ kv hkv2 with h | rfl
                  · exact hinv kv h
                  · rfl
            | post p =>
              have hkv2 : kv ∈ (if site ≠ Site.desu then
                  assocSet st (Entry.post p).num
                    (Entry.post (pushSourceTag p site))
                  else assocSet st (Entry.post p).num (Entry.post p)) := hkv
              by_cases hs : site ≠ Site.desu
              · rw [if_pos hs] at hkv2
                rcases mem_assocSet _ _ _ kv hkv2 with h | rfl
                · exact hinv kv h
                · simp only [Entry.isGhost] at hg' ⊢
                  simpa [pushSourceTag] using hg'
              · rw [if_neg hs] at hkv2
                rcases mem_assocSet _ _ _ kv hkv2 with h | rfl
                · exact hinv kv h
                · exact hg'

/-- Witness for `ghost_exclusion`: the ghost candidate is dropped on a
concrete store. -/
theorem ghost_exclusion_witness :
    dlAddPost 1 10 storeWithMoe (Entry.post ghostPost) Site.desu
      = storeWithMoe :=
  ghost_exclusion.1 1 10 storeWithMoe (Entry.post ghostPost) Site.desu
    (by decide)

/-! ## Thread resolution: ffUtils `fetchThreadSearch`, `fetchThreadChunked`,
`fetchThreadInner`

The loops are modelled with explicit fuel; `none` stands for a run that has
not finished within the fuel (the JS loops have no bound of their own). -/

structure SearchMeta where
  total_found : Nat
  max_results : Nat
deriving DecidableEq, Repr, BEq

structure SearchPage where
  posts : List Post
  meta : SearchMeta
deriving DecidableEq, Repr, BEq

inductive SearchResp where
  | netFail
  | errB (e : String)
  | ok (r : SearchPage)
deriving DecidableEq, Repr, BEq

/-- The search endpoint, as a function of the page number and the optional
`start` timestamp cursor. -/
abbrev SearchOracle := Nat → Option Nat → SearchResp

inductive ChunkResp where
  | netFail
  | errB (e : String)
  | ok (comments : List ThreadEntry)
deriving DecidableEq, Repr, BEq

/-- The chunk endpoint, as a function of the `start` page. -/
abbrev ChunkOracle := Nat → ChunkResp

inductive FetchOut where
  | fatal
  | errRes (e : String)
  | thread (tm : ThreadMap)
deriving DecidableEq, Repr, BEq

/-- `Array.from(map.entries()).sort((a, b) => a[0] - b[0])`. -/
def sortByKey {β : Type} (m : List (Nat × β)) : List (Nat × β) :=
  m.insertionSort (fun a b => a.1 ≤ b.1)

/-- The shared tail of the search and chunked fetchers: split the sorted
unique-posts map into the `op` (the entry numbered `threadNum`) and the
`posts` record. -/
def buildEntry (tnum : Nat) (m : List (Nat × Post)) : ThreadEntry :=
  let uniquePosts := sortByKey m
  { op := (uniquePosts.find? (fun kv => kv.1 == tnum)).map (fun kv => kv.2),
    posts := (uniquePosts.filter (fun kv => ¬ kv.1 == tnum)).map
      (fun kv => kv.2) }

def buildThreadResult (tnum : Nat) (m : List (Nat × Post)) : ThreadMap :=
  [buildEntry tnum m]

/-- One chunk response folded into the unique-posts map (ghost ops and ghost
replies skipped). -/
def chunkAccumulate (m : List (Nat × Post)) (comments : List ThreadEntry) :
    List (Nat × Post) :=
  comments.foldl (fun m te =>
    let m1 := match te.op with
      | some op => if op.subnum == "0" then assocSet m op.num op else m
      | none => m
    te.posts.foldl
      (fun m2 p => if p.subnum != "0" then m2 else assocSet m2 p.num p) m1) m

def fetchThreadChunkedGo (co : ChunkOracle) (tnum : Nat) :
    Nat → Nat → List (Nat × Post) → Option FetchOut
  | 0, _, _ => none
  | fuel + 1, start, m =>
    match co start with
    | .netFail => some .fatal
    | .errB e =>
      if e = "" then some (.thread (buildThreadResult tnum m))
      else some (.errRes e)
    | .ok comments =>
      fetchThreadChunkedGo co tnum fuel (start + 1) (chunkAccumulate m comments)

/-- The body of the per-page post loop of `fetchThreadSearch`: skip ghosts,
`uniquePostsMap.set`, track the running maximum timestamp. -/
def searchInsert (acc : List (Nat × Post) × Nat) (p : Post) :
    List (Nat × Post) × Nat :=
  if p.subnum != "0" then acc
  else
    (assocSet acc.1 p.num p,
     if p.timestamp > acc.2 then p.timestamp else acc.2)

def isBackendDown (e : String) : Bool :=
  e == "The search backend is currently unavailable." ||
  e == "The search backend returned an error."

structure SearchSt where
  map : List (Nat × Post)
  cursor : Option Nat
  page : Nat
  postsThisRound : Nat
  maxTS : Nat
deriving DecidableEq, Repr, BEq

def initSearchSt : SearchSt :=
  { map := [], cursor := none, page := 1, postsThisRound := 0, maxTS := 0 }

def fetchThreadSearchGo (so : SearchOracle) (co : ChunkOracle) (tnum : Nat)
    (useChunkedFallback : Bool) : Nat → SearchSt → Option FetchOut
  | 0, _ => none
  | fuel + 1, s =>
    match so s.page s.cursor with
    | .netFail => some .fatal
    | .errB e =>
      if e = "No results found." then some (.errRes "Thread not found.")
      else if isBackendDown e then
        if useChunkedFallback then fetchThreadChunkedGo co tnum fuel 1 []
        else some (.errRes "Thread not found.")
      else some (.errRes e)
    | .ok r =>
      let newCount := s.postsThisRound + r.posts.length
      let acc := r.posts.foldl searchInsert (s.map, s.maxTS)
      if newCount ≥ r.meta.total_found then
        some (.thread (buildThreadResult tnum acc.1))
      else if newCount ≥ r.meta.max_results then
        fetchThreadSearchGo so co tnum useChunkedFallback fuel
          { map := acc.1, cursor := some acc.2, page := 1,
            postsThisRound := 0, maxTS := acc.2 }
      else
        fetchThreadSearchGo so co tnum useChunkedFallback fuel
          { map := acc.1, cursor := s.cursor, page := s.page + 1,
            postsThisRound := newCount, maxTS := acc.2 }

/-- The direct thread endpoint's answer, as `fetchThreadInner` observes it
(`allowResponses = [500]`, plus 403 on the slowest mirror; a disallowed
status that never clears the retry cap is `netFail`). -/
inductive DirectResp where
  | netFail
  | status403
  | status500
  | errJson (e : String)
  | okJson (tm : ThreadMap)
deriving DecidableEq, Repr, BEq

def fetchThreadInner (d : DirectResp) (so : SearchOracle) (co : ChunkOracle)
    (tnum : Nat) (fuel : Nat) : Option FetchOut :=
  match d with
  | .netFail => some .fatal
  | .status403 => some (.errRes "Captcha required.")
  | .status500 => fetchThreadSearchGo so co tnum true fuel initSearchSt
  | .errJson e =>
    if e = "Thread not found." then
      fetchThreadSearchGo so co tnum false fuel initSearchSt
    else some (.errRes e)
  | .okJson tm => some (.thread tm)

/-- ffUtils `fetchThread`: resolve, then strip ghosts / tag sources. -/
def fetchThreadFF (d : DirectResp) (so : SearchOracle) (co : ChunkOracle)
    (tnum : Nat) (site : Site) (fuel : Nat) : Option FetchOut :=
  match fetchThreadInner d so co tnum fuel with
  | some (.thread tm) => some (.thread (stripThread site tm))
  | r => r

/-! Concrete oracles for the C6 counterexample: the direct endpoint answers
500; the search endpoint has the thread (one post `pA`); the chunk endpoint
would answer a different copy `pB`. -/

def pA : Post :=
  { num := 20, subnum := "0", thread_num := 20, timestamp := 5,
    extra_data := none }

def pB : Post :=
  { num := 20, subnum := "0", thread_num := 20, timestamp := 77,
    extra_data := none }

def soEx : SearchOracle := fun page cursor =>
  match page, cursor with
  | 1, none => .ok { posts := [pA], meta := { total_found := 1, max_results := 100 } }
  | _, _ => .errB "unused"

def coEx : ChunkOracle := fun start =>
  match start with
  | 1 => .ok [{ op := some pB, posts := [] }]
  | _ => .errB ""

/-- C6: on the oversized-thread status (500) the resolver does *not* jump to
chunked enumeration: it runs the paginated search (with the chunked fallback
merely enabled).  Here the search succeeds and its answer `pA` is returned,
although the chunk endpoint would have answered `pB`. -/
theorem status500_runs_search_first :
    fetchThreadInner .status500 soEx coEx 20 10
        = some (.thread [{ op := some pA, posts := [] }]) ∧
    fetchThreadChunkedGo coEx 20 10 1 []
        = some (.thread [{ op := some pB, posts := [] }]) ∧
    pA ≠ pB := by
  decide

/-- C6 (amended): a 500 from the direct thread endpoint sends the resolver to
the paginated-search strategy with the chunked fallback enabled; chunked
enumeration is reached only when that search also reports the backend
down. -/
theorem status500_search_with_fallback :
    (∀ (so : SearchOracle) (co : ChunkOracle) (tnum fuel : Nat),
        fetchThreadInner .status500 so co tnum fuel
          = fetchThreadSearchGo so co tnum true fuel initSearchSt)
    ∧ (∀ (so : SearchOracle) (co : ChunkOracle) (tnum fuel : Nat) (e : String),
        so 1 none = .errB e → isBackendDown e = true →
        fetchThreadInner .status500 so co tnum (fuel + 1)
          = fetchThreadChunkedGo co tnum fuel 1 []) := by
  constructor
  · intro so co tnum fuel
    rfl
  · intro so co tnum fuel e hso hdown
    have hne : e ≠ "No results found." := by
      rw [isBackendDown, Bool.or_eq_true] at hdown
      rcases hdown with h | h
      · rw [beq_iff_eq] at h; rw [h]; decide
      · rw [beq_iff_eq] at h; rw [h]; decide
    show fetchThreadSearchGo so co tnum true (fuel + 1) initSearchSt
      = fetchThreadChunkedGo co tnum fuel 1 []
    unfold fetchThreadSearchGo
    rw [show so initSearchSt.page initSearchSt.cursor = .errB e from hso]
    simp [hne, hdown]

def soDownEx : SearchOracle := fun _ _ =>
  .errB "The search backend is currently unavailable."

/-- Witness for `status500_search_with_fallback` on a concrete
backend-down oracle. -/
theorem status500_search_with_fallback_witness :
    fetchThreadInner .status500 soDownEx coEx 20 4
      = fetchThreadChunkedGo coEx 20 3 1 [] :=
  status500_search_with_fallback.2 soDownEx coEx 20 3
    "The search backend is currently unavailable." rfl (by decide)

/-! ## Key bookkeeping for the unique-posts map (C8) -/

/-- All post numbers of a resolved thread entry (the `op` plus the replies). -/
def entryNums (te : ThreadEntry) : List Nat :=
  (match te.op with | some op => [op.num] | none => []) ++ te.posts.map Post.num

theorem keys_assocSet {β : Type} (m : List (Nat × β)) (k : Nat) (v : β) :
    (assocSet m k v).map Prod.fst =
      if m.any (fun kv => kv.1 = k) then m.map Prod.fst
      else m.map Prod.fst ++ [k] := by
  unfold assocSet
  split
  · rw [List.map_map]
    have hfun : (Prod.fst ∘ fun kv : Nat × β => if kv.1 = k then (k, v) else kv)
        = Prod.fst := by
      funext kv
      by_cases h : kv.1 = k <;> simp [h]
    rw [hfun]
  · rw [List.map_append]
    rfl

theorem mem_keys_assocSet {β : Type} (m : List (Nat × β)) (k : Nat) (v : β)
    (n : Nat) :
    n ∈ (assocSet m k v).map Prod.fst ↔ n ∈ m.map Prod.fst ∨ n = k := by
  rw [keys_assocSet]
  split
  · rename_i h
    constructor
    · exact Or.inl
    · rintro (h1 | rfl)
      · exact h1
      · rcases List.any_eq_true.mp h with ⟨kv, hkv, hk⟩
        have hk' : kv.1 = n := of_decide_eq_true hk
        exact hk' ▸ List.mem_map_of_mem Prod.fst hkv
  · simp [List.mem_append]

theorem nodup_keys_assocSet {β : Type} (m : List (Nat × β)) (k : Nat) (v : β)
    (h : (m.map Prod.fst).Nodup) :
    ((assocSet m k v).map Prod.fst).Nodup := by
  rw [keys_assocSet]
  split
  · exact h
  · rename_i hany
    rw [List.nodup_append]
    refine ⟨h, List.nodup_singleton _, ?_⟩
    intro a ha hb
    have hak : a = k := by simpa using hb
    subst hak
    rcases List.mem_map.mp ha with ⟨kv, hkv, hfst⟩
    have hcontra : m.any (fun kv => kv.1 = a) = true :=
      List.any_eq_true.mpr ⟨kv, hkv, decide_eq_true hfst⟩
    exact hany hcontra

theorem keyed_assocSet {β : Type} (key : β → Nat) (m : List (Nat × β)) (k : Nat)
    (v : β) (hv : key v = k) (h : ∀ kv ∈ m, key kv.2 = kv.1) :
    ∀ kv ∈ assocSet m k v, key kv.2 = kv.1 := by
  intro kv hkv
  rcases mem_assocSet m k v kv hkv with h1 | rfl
  · exact h kv h1
  · exact hv

/-! Folding one search page into the unique-posts map. -/

theorem searchInsert_fold_mem (posts : List Post) :
    ∀ (m : List (Nat × Post)) (ts n : Nat),
      n ∈ ((posts.foldl searchInsert (m, ts)).1).map Prod.fst ↔
        n ∈ m.map Prod.fst ∨ ∃ p ∈ posts, p.subnum = "0" ∧ p.num = n := by
  induction posts with
  | nil => intro m ts n; simp
  | cons p rest ih =>
    intro m ts n
    rw [List.foldl_cons]
    by_cases hg : (p.subnum != "0") = true
    · rw [show searchInsert (m, ts) p = (m, ts) from by
        unfold searchInsert; rw [if_pos hg]]
      rw [ih]
      have hps : ¬ p.subnum = "0" := by simpa using hg
      constructor
      · rintro (h | ⟨q, hq, hs, hn⟩)
        · exact Or.inl h
        · exact Or.inr ⟨q, List.mem_cons_of_mem p hq, hs, hn⟩
      · rintro (h | ⟨q, hq, hs, hn⟩)
        · exact Or.inl h
        · rcases List.mem_cons.mp hq with rfl | hq'
          · exact absurd hs hps
          · exact Or.inr ⟨q, hq', hs, hn⟩
    · have hps : p.subnum = "0" := by simpa using hg
      rw [show searchInsert (m, ts) p
          = (assocSet m p.num p, if p.timestamp > ts then p.timestamp else ts)
        from by unfold searchInsert; rw [if_neg hg]]
      rw [ih, mem_keys_assocSet]
      constructor
      · rintro ((h | rfl) | ⟨q, hq, hs, hn⟩)
        · exact Or.inl h
        · exact Or.inr ⟨p, List.mem_cons_self p rest, hps, rfl⟩
        · exact Or.inr ⟨q, List.mem_cons_of_mem p hq, hs, hn⟩
      · rintro (h | ⟨q, hq, hs, hn⟩)
        · exact Or.inl (Or.inl h)
        · rcases List.mem_cons.mp hq with rfl | hq'
          · exact Or.inl (Or.inr hn.symm)
          · exact Or.inr ⟨q, hq', hs, hn⟩

theorem searchInsert_fold_nodup (posts : List Post) :
    ∀ (m : List (Nat × Post)) (ts : Nat), (m.map Prod.fst).Nodup →
      (((posts.foldl searchInsert (m, ts)).1).map Prod.fst).Nodup := by
  induction posts with
  | nil => intro m ts h; simpa using h
  | cons p rest ih =>
    intro m ts h
    rw [List.foldl_cons]
    by_cases hg : (p.subnum != "0") = true
    · rw [show searchInsert (m, ts) p = (m, ts) from by
        unfold searchInsert; rw [if_pos hg]]
      exact ih m ts h
    · rw [show searchInsert (m, ts) p
          = (assocSet m p.num p, if p.timestamp > ts then p.timestamp else ts)
        from by unfold searchInsert; rw [if_neg hg]]
      exact ih _ _ (nodup_keys_assocSet m p.num p h)

theorem searchInsert_fold_keyed (posts : List Post) :
    ∀ (m : List (Nat × Post)) (ts : Nat), (∀ kv ∈ m, (kv.2).num = kv.1) →
      ∀ kv ∈ (posts.foldl searchInsert (m, ts)).1, (kv.2).num = kv.1 := by
  induction posts with
  | nil => intro m ts h; exact h
  | cons p rest ih =>
    intro m ts h
    rw [List.foldl_cons]
    by_cases hg : (p.subnum != "0") = true
    · rw [show searchInsert (m, ts) p = (m, ts) from by
        unfold searchInsert; rw [if_pos hg]]
      exact ih m ts h
    · rw [show searchInsert (m, ts) p
          = (assocSet m p.num p, if p.timestamp > ts then p.timestamp else ts)
        from by unfold searchInsert; rw [if_neg hg]]
      exact ih _ _ (keyed_assocSet Post.num m p.num p rfl h)

theorem map_fst_filter_key {β : Type} (q : Nat → Bool) (l : List (Nat × β)) :
    (l.filter (fun kv => q kv.1)).map Prod.fst = (l.map Prod.fst).filter q := by
  induction l with
  | nil => rfl
  | cons kv rest ih =>
    cases h : q kv.1 with
    | true => simp [List.filter_cons, h, ih]
    | false => simp [List.filter_cons, h, ih]

/-- The post numbers of `buildEntry tnum m` are exactly the keys of the
unique-posts map, each once. -/
theorem buildEntry_nums (tnum : Nat) (m : List (Nat × Post))
    (hnd : (m.map Prod.fst).Nodup) (hkey : ∀ kv ∈ m, (kv.2).num = kv.1) :
    (entryNums (buildEntry tnum m)).Nodup ∧
      ∀ n, n ∈ entryNums (buildEntry tnum m) ↔ n ∈ m.map Prod.fst := by
  have hperm : (sortByKey m).Perm m := List.perm_insertionSort _ m
  have hkeysperm : ((sortByKey m).map Prod.fst).Perm (m.map Prod.fst) :=
    hperm.map _
  have hnd' : ((sortByKey m).map Prod.fst).Nodup := hkeysperm.nodup_iff.mpr hnd
  have hkey' : ∀ kv ∈ sortByKey m, (kv.2).num = kv.1 := fun kv hkv =>
    hkey kv (hperm.subset hkv)
  have hpostsnums :
      (((sortByKey m).filter (fun kv => kv.1 != tnum)).map
          (fun kv => kv.2)).map Post.num
        = ((sortByKey m).map Prod.fst).filter (fun k => k != tnum) := by
    rw [List.map_map, ← map_fst_filter_key (fun k => k != tnum) (sortByKey m)]
    exact List.map_congr_left fun kv hkv =>
      hkey' kv (List.mem_of_mem_filter hkv)
  have hnums : entryNums (buildEntry tnum m)
      = (match (sortByKey m).find? (fun kv => kv.1 == tnum) with
         | some kv => [(kv.2).num]
         | none => [])
        ++ ((sortByKey m).map Prod.fst).filter (fun k => k != tnum) := by
    unfold entryNums buildEntry
    cases hf : (sortByKey m).find? (fun kv => kv.1 == tnum) with
    | none => simpa [hf] using hpostsnums
    | some kv => simpa [hf] using hpostsnums
  cases hf : (sortByKey m).find? (fun kv => kv.1 == tnum) with
  | none =>
    have hnone : ∀ k ∈ (sortByKey m).map Prod.fst, k ≠ tnum := by
      intro k hk
      rcases List.mem_map.mp hk with ⟨kv, hkv, rfl⟩
      have := List.find?_eq_none.mp hf kv hkv
      simpa using this
    have hfilter :
        ((sortByKey m).map Prod.fst).filter (fun k => k != tnum)
          = (sortByKey m).map Prod.fst :=
      List.filter_eq_self.mpr fun k hk => by
        simpa using hnone k hk
    rw [hnums, hf] at *
    constructor
    · simpa [hfilter] using hnd'
    · intro n
      rw [show (match (none : Option (Nat × Post)) with
          | some kv => [(kv.2).num] | none => ([] : List Nat)) = [] from rfl]
      rw [List.nil_append, hfilter]
      exact ⟨fun h => hkeysperm.subset h, fun h => hkeysperm.symm.subset h⟩
  | some kv =>
    have hkv1 : kv.1 = tnum := by
      have := List.find?_some hf
      simpa using this
    have hkvmem : kv ∈ sortByKey m := List.mem_of_find?_eq_some hf
    have hkvnum : (kv.2).num = tnum := by rw [hkey' kv hkvmem, hkv1]
    have htmem : tnum ∈ (sortByKey m).map Prod.fst :=
      hkv1 ▸ List.mem_map_of_mem Prod.fst hkvmem
    have hnotmem : tnum ∉
        ((sortByKey m).map Prod.fst).filter (fun k => k != tnum) := by
      intro hmem
      have := List.of_mem_filter hmem
      simpa using this
    rw [hnums, hf]
    rw [show (match (some kv : Option (Nat × Post)) with
        | some kv => [(kv.2).num] | none => ([] : List Nat)) = [(kv.2).num]
      from rfl]
    constructor
    · rw [List.nodup_append]
      refine ⟨List.nodup_singleton _, hnd'.filter _, ?_⟩
      intro a ha hb
      have : a = tnum := by rw [hkvnum] at ha; simpa using ha
      exact hnotmem (this ▸ hb)
    · intro n
      rw [List.mem_append, hkvnum]
      constructor
      · rintro (h | h)
        · have : n = tnum := by simpa using h
          exact hkeysperm.subset (this ▸ htmem)
        · exact hkeysperm.subset (List.mem_of_mem_filter h)
      · intro h
        have h' : n ∈ (sortByKey m).map Prod.fst := hkeysperm.symm.subset h
        by_cases hn : n = tnum
        · exact Or.inl (by simpa using hn)
        · exact Or.inr (List.mem_filter.mpr ⟨h', by simpa using hn⟩)

/-- C8: in `fetchThreadSearch`, (1) when the running count reaches
`meta.max_results` before `meta.total_found`, the loop restarts from page 1
with the timestamp cursor set to the maximum timestamp collected so far and a
reset running count; (2) the loop returns the built thread as soon as the
running count reaches `meta.total_found`; (3) the unique-posts map collects
exactly the non-ghost posts of the consumed pages, keyed by `num`; (4) the
returned thread lists each collected number exactly once (op plus replies,
deduplicated by `num`). -/
theorem search_pagination_spec :
    (∀ (so : SearchOracle) (co : ChunkOracle) (tnum : Nat) (ucf : Bool)
        (fuel : Nat) (s : SearchSt) (r : SearchPage),
        so s.page s.cursor = .ok r →
        s.postsThisRound + r.posts.length < r.meta.total_found →
        s.postsThisRound + r.posts.length ≥ r.meta.max_results →
        fetchThreadSearchGo so co tnum ucf (fuel + 1) s =
          fetchThreadSearchGo so co tnum ucf fuel
            { map := (r.posts.foldl searchInsert (s.map, s.maxTS)).1,
              cursor := some (r.posts.foldl searchInsert (s.map, s.maxTS)).2,
              page := 1, postsThisRound := 0,
              maxTS := (r.posts.foldl searchInsert (s.map, s.maxTS)).2 })
    ∧ (∀ (so : SearchOracle) (co : ChunkOracle) (tnum : Nat) (ucf : Bool)
        (fuel : Nat) (s : SearchSt) (r : SearchPage),
        so s.page s.cursor = .ok r →
        s.postsThisRound + r.posts.length ≥ r.meta.total_found →
        fetchThreadSearchGo so co tnum ucf (fuel + 1) s =
          some (.thread (buildThreadResult tnum
            (r.posts.foldl searchInsert (s.map, s.maxTS)).1)))
    ∧ (∀ (posts : List Post) (m : List (Nat × Post)) (ts n : Nat),
        n ∈ ((posts.foldl searchInsert (m, ts)).1).map Prod.fst ↔
          n ∈ m.map Prod.fst ∨ ∃ p ∈ posts, p.subnum = "0" ∧ p.num = n)
    ∧ (∀ (tnum : Nat) (m : List (Nat × Post)),
        (m.map Prod.fst).Nodup → (∀ kv ∈ m, (kv.2).num = kv.1) →
        (entryNums (buildEntry tnum m)).Nodup ∧
          ∀ n, n ∈ entryNums (buildEntry tnum m) ↔ n ∈ m.map Prod.fst) := by
  refine ⟨?_, ?_, ?_, ?_⟩
  · intro so co tnum ucf fuel s r hso hlt hge
    have h1 : ¬ (s.postsThisRound + r.posts.length ≥ r.meta.total_found) := by
      omega
    simp only [fetchThreadSearchGo, hso]
    rw [if_neg h1, if_pos hge]
  · intro so co tnum ucf fuel s r hso hge
    simp only [fetchThreadSearchGo, hso]
    rw [if_pos hge]
  · intro posts m ts n
    exact searchInsert_fold_mem posts m ts n
  · intro tnum m hnd hkey
    exact buildEntry_nums tnum m hnd hkey

/-! Concrete two-page scenario with a restart cursor, for the witness. -/

def q1 : Post :=
  { num := 21, subnum := "0", thread_num := 21, timestamp := 10,
    extra_data := none }

def q2 : Post :=
  { num := 22, subnum := "0", thread_num := 21, timestamp := 20,
    extra_data := none }

def q3 : Post :=
  { num := 23, subnum := "0", thread_num := 21, timestamp := 30,
    extra_data := none }

def pageOne : SearchPage :=
  { posts := [q1, q2], meta := { total_found := 3, max_results := 2 } }

def pageTwo : SearchPage :=
  { posts := [q3], meta := { total_found := 1, max_results := 2 } }

def soC8 : SearchOracle := fun page cursor =>
  match page, cursor with
  | 1, none => .ok pageOne
  | 1, some 20 => .ok pageTwo
  | _, _ => .errB "unused"

def stC8 : SearchSt :=
  { map := [(21, q1), (22, q2)], cursor := some 20, page := 1,
    postsThisRound := 0, maxTS := 20 }

/-- Witness for `search_pagination_spec`: the cap is hit after page one
(2 of 3 found, cap 2), the loop restarts at page 1 with cursor 20, and the
cursor page finishes the run. -/
theorem search_pagination_spec_witness :
    (fetchThreadSearchGo soC8 coEx 21 true 5 initSearchSt
        = fetchThreadSearchGo soC8 coEx 21 true 4
          { map := (pageOne.posts.foldl searchInsert
              (initSearchSt.map, initSearchSt.maxTS)).1,
            cursor := some (pageOne.posts.foldl searchInsert
              (initSearchSt.map, initSearchSt.maxTS)).2,
            page := 1, postsThisRound := 0,
            maxTS := (pageOne.posts.foldl searchInsert
              (initSearchSt.map, initSearchSt.maxTS)).2 })
    ∧ (fetchThreadSearchGo soC8 coEx 21 true 4 stC8
        = some (.thread (buildThreadResult 21
            (pageTwo.posts.foldl searchInsert (stC8.map, stC8.maxTS)).1)))
    ∧ (23 ∈ ((pageTwo.posts.foldl searchInsert
          (stC8.map, stC8.maxTS)).1).map Prod.fst ↔
        23 ∈ stC8.map.map Prod.fst
          ∨ ∃ p ∈ pageTwo.posts, p.subnum = "0" ∧ p.num = 23)
    ∧ ((entryNums (buildEntry 21 stC8.map)).Nodup ∧
        ∀ n, n ∈ entryNums (buildEntry 21 stC8.map)
          ↔ n ∈ stC8.map.map Prod.fst) :=
  ⟨search_pagination_spec.1 soC8 coEx 21 true 4 initSearchSt pageOne rfl
      (by decide) (by decide),
   search_pagination_spec.2.1 soC8 coEx 21 true 3 stC8 pageTwo rfl (by decide),
   search_pagination_spec.2.2.1 pageTwo.posts stC8.map stC8.maxTS 23,
   search_pagination_spec.2.2.2 21 stC8.map (by decide)
     (by
       intro kv hkv
       simp only [stC8] at hkv
       rcases List.mem_cons.mp hkv with rfl | hkv
       · rfl
       · rcases List.mem_cons.mp hkv with rfl | hkv
         · rfl
         · simp at hkv)⟩

/-! ## The incremental archive builder: downloader.js `downloadChunk`

The run is a pure function of the manifest, the post-lookup cache file, and
the oracles below.  `fetchThread`'s composite behaviour is abstracted as
`threadO` (its internals are modelled separately above); `netFail` is a
`myFetch` call that threw after exhausting its retries. -/

inductive ApiResp (α : Type) where
  | netFail
  | errB (e : String)
  | ok (a : α)
deriving DecidableEq, Repr, BEq

structure DlOracles where
  latest : Nat
  postO : Site → Nat → ApiResp Post
  threadO : Site → Nat → ApiResp ThreadMap

/-- The manifest fields this core mutates (`monthly`/`yearly` are untouched
by `downloadChunk` and elided); a daily chunk name
`<timestamp>_daily_<first>_<last>` is abstracted to its `(first, last)`
pair. -/
structure Manifest where
  lastDownLoaded : Nat
  daily : List (Nat × Nat)
deriving DecidableEq, Repr, BEq

inductive RunErr where
  | fetchFatal (msg : String)  -- a throw inside the primary fetch loop
  | emptyChunk                 -- `consPost[0].num` with consPost empty
deriving DecidableEq, Repr, BEq

/-- The observable outcome of one `downloadChunk` run.  `finalStore` exposes
the in-memory `downloaded` map at write time (for specification only);
`secondaryCaught` records whether the try/catch around the arch.b4k.dev pass
caught an error. -/
structure RunOut where
  noWork : Bool
  lookupWritten : Option (List Post)
  chunkWritten : Option (List Entry)
  manifest : Manifest
  fatal : Option RunErr
  secondaryCaught : Bool
  finalStore : Store
deriving DecidableEq, Repr, BEq

/-- Merge every op and reply of a thread response through `addPost`. -/
def addThreadPosts (start end_ : Nat) (site : Site) (st : Store)
    (tm : ThreadMap) : Store :=
  tm.foldl (fun st te =>
    let st1 := match te.op with
      | some op => dlAddPost start end_ st (.post op) site
      | none => st
    te.posts.foldl (fun st2 p => dlAddPost start end_ st2 (.post p) site) st1)
    st

/-- The desuarchive pass of `downloadChunk` (`for pNum = start..end`): skip
present numbers, fetch the post ("not found" becomes a placeholder, other
errors throw), then fetch and merge its thread ("not found" becomes a
placeholder for the thread root, other errors throw). -/
def primaryLoop (oc : DlOracles) (start end_ nowTS : Nat) :
    List Nat → Store → Except String Store
  | [], st => .ok st
  | pNum :: rest, st =>
    if (storeGet st pNum).isSome then primaryLoop oc start end_ nowTS rest st
    else
      match oc.postO .desu pNum with
      | .netFail => .error "fetch failed"
      | .errB e =>
        if e = "Post not found." then
          primaryLoop oc start end_ nowTS rest
            (dlAddPost start end_ st (.exc ⟨pNum, "Post: not found", nowTS⟩)
              .desu)
        else .error ("Error fetching post: " ++ e)
      | .ok p =>
        let st1 := dlAddPost start end_ st (.post p) .desu
        match oc.threadO .desu p.thread_num with
        | .netFail => .error "fetch failed"
        | .errB e =>
          if e = "Thread not found." then
            primaryLoop oc start end_ nowTS rest
              (dlAddPost start end_ st1
                (.exc ⟨p.thread_num, "Post: not found", nowTS⟩) .desu)
          else .error ("Error fetching thread: " ++ e)
        | .ok tm =>
          primaryLoop oc start end_ nowTS rest
            (addThreadPosts start end_ .desu st1 tm)

/-- `!downloadedPost || ('exception' in downloadedPost)`. -/
def isMissingAt (st : Store) (n : Nat) : Bool :=
  match storeGet st n with
  | none => true
  | some e => e.isExc

def missingCount (st : Store) (nums : List Nat) : Nat :=
  (nums.filter (fun n => isMissingAt st n)).length

/-- The arch.b4k.dev pass.  The surrounding `try { ... } catch` means a
throw stops the loop but keeps everything merged so far; the `Bool` records
whether that happened. -/
def secondaryLoop (oc : DlOracles) (start end_ : Nat) :
    List Nat → Store → Store × Bool
  | [], st => (st, false)
  | pNum :: rest, st =>
    if isMissingAt st pNum = false then secondaryLoop oc start end_ rest st
    else
      match oc.postO .b4k pNum with
      | .netFail => (st, true)
      | .errB e =>
        if e = "Post not found." then secondaryLoop oc start end_ rest st
        else (st, true)
      | .ok p =>
        let st1 := dlAddPost start end_ st (.post p) .b4k
        match oc.threadO .b4k p.thread_num with
        | .netFail => (st1, true)
        | .errB e =>
          if e = "Thread not found." then secondaryLoop oc start end_ rest st1
          else (st1, true)
        | .ok tm =>
          secondaryLoop oc start end_ rest (addThreadPosts start end_ .b4k st1 tm)

/-- The committable-prefix split: walk the sorted entries; push onto
`consPost` while numerically consecutive (the very first entry is always
pushed), divert non-placeholder leftovers to the next lookup cache, drop
placeholder leftovers. -/
def partitionCons : Option Nat → List (Nat × Entry) → List Entry × List Post
  | _, [] => ([], [])
  | prev, (num, e) :: rest =>
    match prev with
    | none =>
      let r := partitionCons (some num) rest
      (e :: r.1, r.2)
    | some pn =>
      if num = pn + 1 then
        let r := partitionCons (some num) rest
        (e :: r.1, r.2)
      else
        match e with
        | .post p =>
          let r := partitionCons (some pn) rest
          (r.1, p :: r.2)
        | .exc _ => partitionCons (some pn) rest

/-- Loading `post_lookup_cache.json`: entries below the new window start are
discarded. -/
def loadLookup (cache : List Post) (start : Nat) : List (Nat × Post) :=
  cache.foldl (fun m p => if p.num < start then m else assocSet m p.num p) []

/-- Seeding `downloaded` from the lookup cache over the window numbers. -/
def seedStore (pl : List (Nat × Post)) (nums : List Nat) : Store :=
  nums.foldl (fun st i =>
    match alookup i pl with
    | some p => assocSet st i (.post p)
    | none => st) []

def CHUNK_POSTS_MAX : Nat := 100000

def downloadChunkModel (m0 : Manifest) (cache : Option (List Post))
    (oc : DlOracles) (nowTS : Nat) : RunOut :=
  let newPosts : Int := (oc.latest : Int) - (m0.lastDownLoaded : Int)
  let toDownload : Nat := (min (max newPosts 0) (CHUNK_POSTS_MAX : Int)).toNat
  if toDownload = 0 then
    { noWork := true, lookupWritten := none, chunkWritten := none,
      manifest := m0, fatal := none, secondaryCaught := false,
      finalStore := [] }
  else
    let start := m0.lastDownLoaded + 1
    let end_ := start + toDownload - 1
    let wnums := List.range' start toDownload
    let st0 := seedStore (loadLookup (cache.getD []) start) wnums
    match primaryLoop oc start end_ nowTS wnums st0 with
    | .error e =>
      { noWork := false, lookupWritten := none, chunkWritten := none,
        manifest := m0, fatal := some (.fetchFatal e),
        secondaryCaught := false, finalStore := [] }
    | .ok st1 =>
      let sres := if missingCount st1 wnums ≠ 0 then
          secondaryLoop oc start end_ wnums st1
        else (st1, false)
      let parts := partitionCons none (sortByKey sres.1)
      match parts.1 with
      | [] =>
        { noWork := false, lookupWritten := some parts.2,
          chunkWritten := none, manifest := m0, fatal := some .emptyChunk,
          secondaryCaught := sres.2, finalStore := sres.1 }
      | c0 :: cs =>
        { noWork := false, lookupWritten := some parts.2,
          chunkWritten := some (c0 :: cs),
          manifest := { lastDownLoaded := ((c0 :: cs).getLast (by simp)).num,
                        daily := m0.daily
                          ++ [(c0.num, ((c0 :: cs).getLast (by simp)).num)] },
          fatal := none, secondaryCaught := sres.2, finalStore := sres.1 }

/-- The chunk-file text: each record serialized, joined with newlines, plus
a trailing newline, over an abstract per-record serializer. -/
def renderChunkFile (ser : Entry → String) (lines : List Entry) : String :=
  String.intercalate "\n" (lines.map ser) ++ "\n"

/-! Concrete runs used by the C1/C2/C3 counterexamples and witnesses. -/

/-- The primary source answers the post fetch for number 1 with a ghost
reply; its thread supplies post 2. -/
def ghostAtStart : Post :=
  { num := 1, subnum := "1", thread_num := 1, timestamp := 0,
    extra_data := none }

def post2C1 : Post :=
  { num := 2, subnum := "0", thread_num := 1, timestamp := 9,
    extra_data := none }

def ocC1 : DlOracles :=
  { latest := 2,
    postO := fun site n =>
      match site, n with
      | .desu, 1 => .ok ghostAtStart
      | .b4k, 1 => .errB "Post not found."
      | _, _ => .errB "unused",
    threadO := fun site n =>
      match site, n with
      | .desu, 1 => .ok [{ op := some ghostAtStart, posts := [post2C1] }]
      | _, _ => .errB "unused" }

/-- Number 1 is a placeholder after the primary pass; the secondary fetch
for it fails fatally (retry cap exhausted). -/
def ocC2 : DlOracles :=
  { latest := 1,
    postO := fun site n =>
      match site, n with
      | .desu, 1 => .errB "Post not found."
      | .b4k, 1 => .netFail
      | _, _ => .errB "unused",
    threadO := fun _ _ => .errB "unused" }

/-- The primary fetch for number 1 fails fatally at once. -/
def ocC2f : DlOracles :=
  { latest := 1,
    postO := fun site n =>
      match site, n with
      | .desu, 1 => .netFail
      | _, _ => .errB "unused",
    threadO := fun _ _ => .errB "unused" }

/-- Number 1 is missing at the primary and secondary sources but available
at archived.moe. -/
def moePost1 : Post :=
  { num := 1, subnum := "0", thread_num := 1, timestamp := 3,
    extra_data := none }

def ocC3 : DlOracles :=
  { latest := 1,
    postO := fun site n =>
      match site, n with
      | .desu, 1 => .errB "Post not found."
      | .b4k, 1 => .errB "Post not found."
      | .moe, 1 => .ok moePost1
      | _, _ => .errB "unused",
    threadO := fun _ _ => .errB "unused" }

/-- Number 1 is missing at the primary source and recovered from
arch.b4k.dev. -/
def b4kPost1 : Post :=
  { num := 1, subnum := "0", thread_num := 1, timestamp := 4,
    extra_data := none }

def ocC3b : DlOracles :=
  { latest := 1,
    postO := fun site n =>
      match site, n with
      | .desu, 1 => .errB "Post not found."
      | .b4k, 1 => .ok b4kPost1
      | _, _ => .errB "unused",
    threadO := fun site n =>
      match site, n with
      | .b4k, 1 => .errB "Thread not found."
      | _, _ => .errB "unused" }

/-- C1: a run whose emitted chunk does not start at `checkpoint + 1`: the
post at number 1 (= checkpoint+1) is a ghost reply, so no record is ever
stored for it; the chunk file starts at 2. -/
theorem chunk_first_num_not_checkpoint_succ :
    (downloadChunkModel ⟨0, []⟩ none ocC1 50).chunkWritten
        = some [Entry.post post2C1]
    ∧ Entry.num (Entry.post post2C1) = 2
    ∧ (0 : Nat) + 1 ≠ 2 := by
  decide

/-- C2: the fetch for number 1 in the arch.b4k.dev pass fails fatally (the
retry cap is exhausted), yet the run still emits the chunk and lookahead
files and mutates the manifest — the try/catch around the secondary pass
swallows the error. -/
theorem secondary_fetch_failure_still_emits :
    (downloadChunkModel ⟨0, []⟩ none ocC2 50).secondaryCaught = true
    ∧ (downloadChunkModel ⟨0, []⟩ none ocC2 50).chunkWritten
        = some [Entry.exc ⟨1, "Post: not found", 50⟩]
    ∧ (downloadChunkModel ⟨0, []⟩ none ocC2 50).lookupWritten = some []
    ∧ (downloadChunkModel ⟨0, []⟩ none ocC2 50).manifest
        = { lastDownLoaded := 1, daily := [(1, 1)] } := by
  decide

/-- C3: archived.moe has the still-missing post 1, yet the run emits a
placeholder for it: `downloadChunk` has no tertiary pass. -/
theorem tertiary_source_unused :
    ocC3.postO Site.moe 1 = .ok moePost1
    ∧ (downloadChunkModel ⟨0, []⟩ none ocC3 50).chunkWritten
        = some [Entry.exc ⟨1, "Post: not found", 50⟩]
    ∧ (downloadChunkModel ⟨0, []⟩ none ocC3 50).fatal = none := by
  decide

/-- Control-flow shape of a run: either it ends without a fetch abort
(`fatal` is `none` or the empty-chunk crash), or it aborted inside the
primary fetch loop, in which case nothing was written and the manifest is
untouched. -/
theorem downloadChunkModel_shape (m0 : Manifest) (cache : Option (List Post))
    (oc : DlOracles) (nowTS : Nat) :
    ((downloadChunkModel m0 cache oc nowTS).fatal = none
      ∨ (downloadChunkModel m0 cache oc nowTS).fatal = some .emptyChunk)
    ∨ ((∃ e, (downloadChunkModel m0 cache oc nowTS).fatal
          = some (.fetchFatal e))
        ∧ (downloadChunkModel m0 cache oc nowTS).lookupWritten = none
        ∧ (downloadChunkModel m0 cache oc nowTS).chunkWritten = none
        ∧ (downloadChunkModel m0 cache oc nowTS).manifest = m0
        ∧ (downloadChunkModel m0 cache oc nowTS).secondaryCaught = false) := by
  simp only [downloadChunkModel]
  split
  · left; left; rfl
  · split
    · right; exact ⟨⟨_, rfl⟩, rfl, rfl, rfl, rfl⟩
    · split
      · left; right; rfl
      · left; left; rfl

/-- C2 (amended): a fatal fetch failure in the primary pass aborts the run
before anything is emitted — no chunk file, no lookahead cache, manifest
unchanged.  A fatal failure in the secondary (arch.b4k.dev) pass is caught:
the run never aborts because of it and proceeds to emit. -/
theorem primary_fatal_aborts_run :
    (∀ (m0 : Manifest) (cache : Option (List Post)) (oc : DlOracles)
        (nowTS : Nat) (e : String),
        (downloadChunkModel m0 cache oc nowTS).fatal = some (.fetchFatal e) →
        (downloadChunkModel m0 cache oc nowTS).lookupWritten = none
        ∧ (downloadChunkModel m0 cache oc nowTS).chunkWritten = none
        ∧ (downloadChunkModel m0 cache oc nowTS).manifest = m0)
    ∧ (∀ (m0 : Manifest) (cache : Option (List Post)) (oc : DlOracles)
        (nowTS : Nat),
        (downloadChunkModel m0 cache oc nowTS).secondaryCaught = true →
        (downloadChunkModel m0 cache oc nowTS).fatal = none
        ∨ (downloadChunkModel m0 cache oc nowTS).fatal = some .emptyChunk) := by
  constructor
  · intro m0 cache oc nowTS e hf
    rcases downloadChunkModel_shape m0 cache oc nowTS with h | h
    · rcases h with h | h <;> rw [h] at hf <;> simp at hf
    · exact ⟨h.2.1, h.2.2.1, h.2.2.2.1⟩
  · intro m0 cache oc nowTS hsc
    rcases downloadChunkModel_shape m0 cache oc nowTS with h | h
    · exact h
    · rw [h.2.2.2.2] at hsc
      exact absurd hsc (by simp)

/-- Witness for `primary_fatal_aborts_run`: a primary-pass failure leaves
everything unwritten; the caught secondary failure of `ocC2` coexists with a
clean `fatal`. -/
theorem primary_fatal_aborts_run_witness :
    ((downloadChunkModel ⟨0, []⟩ none ocC2f 50).lookupWritten = none
      ∧ (downloadChunkModel ⟨0, []⟩ none ocC2f 50).chunkWritten = none
      ∧ (downloadChunkModel ⟨0, []⟩ none ocC2f 50).manifest = ⟨0, []⟩)
    ∧ ((downloadChunkModel ⟨0, []⟩ none ocC2 50).fatal = none
      ∨ (downloadChunkModel ⟨0, []⟩ none ocC2 50).fatal
          = some .emptyChunk) :=
  ⟨primary_fatal_aborts_run.1 ⟨0, []⟩ none ocC2f 50 "fetch failed"
      (by decide),
   primary_fatal_aborts_run.2 ⟨0, []⟩ none ocC2 50 (by decide)⟩

/-- Replace the archived.moe oracles, leaving the other two hosts as they
were. -/
def patchMoe (oc : DlOracles) (p2 : Nat → ApiResp Post)
    (t2 : Nat → ApiResp ThreadMap) : DlOracles :=
  { latest := oc.latest,
    postO := fun site n =>
      match site with
      | .moe => p2 n
      | _ => oc.postO site n,
    threadO := fun site n =>
      match site with
      | .moe => t2 n
      | _ => oc.threadO site n }

theorem primaryLoop_patchMoe (oc : DlOracles) (p2 : Nat → ApiResp Post)
    (t2 : Nat → ApiResp ThreadMap) (start end_ nowTS : Nat)
    (nums : List Nat) :
    ∀ st, primaryLoop (patchMoe oc p2 t2) start end_ nowTS nums st
      = primaryLoop oc start end_ nowTS nums st := by
  induction nums with
  | nil => intro st; rfl
  | cons pNum rest ih =>
    intro st
    simp only [primaryLoop]
    rw [show (patchMoe oc p2 t2).postO Site.desu pNum
      = oc.postO Site.desu pNum from rfl]
    by_cases hs : (storeGet st pNum).isSome = true
    · simp only [if_pos hs]
      exact ih st
    · simp only [if_neg hs]
      cases hp : oc.postO Site.desu pNum with
      | netFail => rfl
      | errB e =>
        by_cases he : e = "Post not found."
        · simp only [if_pos he]
          exact ih _
        · simp only [if_neg he]
      | ok p =>
        dsimp only
        rw [show (patchMoe oc p2 t2).threadO Site.desu p.thread_num
          = oc.threadO Site.desu p.thread_num from rfl]
        cases ht : oc.threadO Site.desu p.thread_num with
        | netFail => rfl
        | errB e =>
          by_cases he : e = "Thread not found."
          · simp only [if_pos he]
            exact ih _
          · simp only [if_neg he]
        | ok tm => exact ih _

theorem secondaryLoop_patchMoe (oc : DlOracles) (p2 : Nat → ApiResp Post)
    (t2 : Nat → ApiResp ThreadMap) (start end_ : Nat) (nums : List Nat) :
    ∀ st, secondaryLoop (patchMoe oc p2 t2) start end_ nums st
      = secondaryLoop oc start end_ nums st := by
  induction nums with
  | nil => intro st; rfl
  | cons pNum rest ih =>
    intro st
    simp only [secondaryLoop]
    rw [show (patchMoe oc p2 t2).postO Site.b4k pNum
      = oc.postO Site.b4k pNum from rfl]
    by_cases hs : isMissingAt st pNum = false
    · simp only [if_pos hs]
      exact ih st
    · simp only [if_neg hs]
      cases hp : oc.postO Site.b4k pNum with
      | netFail => rfl
      | errB e =>
        by_cases he : e = "Post not found."
        · simp only [if_pos he]
          exact ih _
        · simp only [if_neg he]
      | ok p =>
        dsimp only
        rw [show (patchMoe oc p2 t2).threadO Site.b4k p.thread_num
          = oc.threadO Site.b4k p.thread_num from rfl]
        cases ht : oc.threadO Site.b4k p.thread_num with
        | netFail => rfl
        | errB e =>
          by_cases he : e = "Thread not found."
          · simp only [if_pos he]
            exact ih _
          · simp only [if_neg he]
        | ok tm => exact ih _

/-! ## C1: contiguity of the emitted chunk -/

/-- Every store reachable in a run keyed at window `[start, ..]`: keys are at
least `start` and each entry's `num` equals its key. -/
def StoreInv (start : Nat) (st : Store) : Prop :=
  ∀ kv ∈ st, start ≤ kv.1 ∧ Entry.num kv.2 = kv.1

theorem dlAddPost_inv (start end_ : Nat) (st : Store) (e : Entry) (site : Site)
    (hinv : StoreInv start st) :
    StoreInv start (dlAddPost start end_ st e site) := by
  intro kv hkv
  unfold dlAddPost at hkv
  by_cases hg : e.isGhost = true
  · rw [hg] at hkv
    simp at hkv
    exact hinv kv hkv
  · have hg' : e.isGhost = false := by simpa using hg
    rw [hg'] at hkv
    simp only [Bool.false_eq_true, if_false] at hkv
    by_cases h1 : e.num < start
    · rw [if_pos h1] at hkv
      exact hinv kv hkv
    · rw [if_neg h1] at hkv
      have hns : start ≤ e.num := Nat.le_of_not_lt h1
      by_cases h2 : site ≠ Site.desu ∧ (end_ < e.num ∨ existsReal st e.num = true)
      · rw [if_pos h2] at hkv
        exact hinv kv hkv
      · rw [if_neg h2] at hkv
        cases hget : storeGet st e.num with
        | none =>
          rw [hget] at hkv
          rcases mem_assocSet _ _ _ kv hkv with h | rfl
          · exact hinv kv h
          · exact ⟨hns, rfl⟩
        | some existing =>
          rw [hget] at hkv
          cases e with
          | exc ex =>
            cases existing with
            | post p0 => exact hinv kv hkv
            | exc e0 =>
              have hkv2 : kv ∈ (if e0.exception = ex.exception then st
                  else assocSet st (Entry.exc ex).num (Entry.exc ex)) := hkv
              by_cases heq : e0.exception = ex.exception
              · rw [if_pos heq] at hkv2
                exact hinv kv hkv2
              · rw [if_neg heq] at hkv2
                rcases mem_assocSet _ _ _ kv hkv2 with h | rfl
                · exact hinv kv h
                · exact ⟨hns, rfl⟩
          | post p =>
            have hkv2 : kv ∈ (if site ≠ Site.desu then
                assocSet st (Entry.post p).num
                  (Entry.post (pushSourceTag p site))
                else assocSet st (Entry.post p).num (Entry.post p)) := hkv
            by_cases hs : site ≠ Site.desu
            · rw [if_pos hs] at hkv2
              rcases mem_assocSet _ _ _ kv hkv2 with h | rfl
              · exact hinv kv h
              · exact ⟨hns, rfl⟩
            · rw [if_neg hs] at hkv2
              rcases mem_assocSet _ _ _ kv hkv2 with h | rfl
              · exact hinv kv h
              · exact ⟨hns, rfl⟩

theorem foldl_dlAddPost_inv (start end_ : Nat) (site : Site) (ps : List Post) :
    ∀ st, StoreInv start st →
      StoreInv start (ps.foldl
        (fun st2 p => dlAddPost start end_ st2 (.post p) site) st) := by
  induction ps with
  | nil => intro st h; exact h
  | cons p rest ih =>
    intro st h
    rw [List.foldl_cons]
    exact ih _ (dlAddPost_inv _ _ _ _ _ h)

theorem addThreadPosts_inv (start end_ : Nat) (site : Site) (tm : ThreadMap) :
    ∀ st, StoreInv start st →
      StoreInv start (addThreadPosts start end_ site st tm) := by
  induction tm with
  | nil => intro st h; exact h
  | cons te rest ih =>
    intro st h
    unfold addThreadPosts
    rw [List.foldl_cons]
    have hstep : StoreInv start
        (te.posts.foldl (fun st2 p => dlAddPost start end_ st2 (.post p) site)
          (match te.op with
           | some op => dlAddPost start end_ st (.post op) site
           | none => st)) := by
      cases hop : te.op with
      | some op =>
        exact foldl_dlAddPost_inv _ _ _ _ _ (dlAddPost_inv _ _ _ _ _ h)
      | none => exact foldl_dlAddPost_inv _ _ _ _ _ h
    exact ih _ hstep

theorem primaryLoop_inv (oc : DlOracles) (start end_ nowTS : Nat)
    (nums : List Nat) :
    ∀ st st1, primaryLoop oc start end_ nowTS nums st = .ok st1 →
      StoreInv start st → StoreInv start st1 := by
  induction nums with
  | nil =>
    intro st st1 h hinv
    cases h
    exact hinv
  | cons pNum rest ih =>
    intro st st1 h hinv
    simp only [primaryLoop] at h
    by_cases hs : (storeGet st pNum).isSome = true
    · rw [if_pos hs] at h
      exact ih st st1 h hinv
    · rw [if_neg hs] at h
      cases hp : oc.postO Site.desu pNum with
      | netFail =>
        rw [hp] at h
        exact absurd h (by simp)
      | errB e =>
        rw [hp] at h
        dsimp only at h
        by_cases he : e = "Post not found."
        · rw [if_pos he] at h
          exact ih _ _ h (dlAddPost_inv _ _ _ _ _ hinv)
        · rw [if_neg he] at h
          exact absurd h (by simp)
      | ok p =>
        rw [hp] at h
        dsimp only at h
        cases ht : oc.threadO Site.desu p.thread_num with
        | netFail =>
          rw [ht] at h
          exact absurd h (by simp)
        | errB e =>
          rw [ht] at h
          dsimp only at h
          by_cases he : e = "Thread not found."
          · rw [if_pos he] at h
            exact ih _ _ h
              (dlAddPost_inv _ _ _ _ _ (dlAddPost_inv _ _ _ _ _ hinv))
          · rw [if_neg he] at h
            exact absurd h (by simp)
        | ok tm =>
          rw [ht] at h
          dsimp only at h
          exact ih _ _ h
            (addThreadPosts_inv _ _ _ _ _ (dlAddPost_inv _ _ _ _ _ hinv))

theorem secondaryLoop_inv (oc : DlOracles) (start end_ : Nat)
    (nums : List Nat) :
    ∀ st, StoreInv start st →
      StoreInv start (secondaryLoop oc start end_ nums st).1 := by
  induction nums with
  | nil => intro st h; exact h
  | cons pNum rest ih =>
    intro st h
    simp only [secondaryLoop]
    by_cases hs : isMissingAt st pNum = false
    · rw [if_pos hs]
      exact ih st h
    · rw [if_neg hs]
      cases hp : oc.postO Site.b4k pNum with
      | netFail => exact h
      | errB e =>
        dsimp only
        by_cases he : e = "Post not found."
        · rw [if_pos he]
          exact ih st h
        · rw [if_neg he]
          exact h
      | ok p =>
        dsimp only
        cases ht : oc.threadO Site.b4k p.thread_num with
        | netFail => exact dlAddPost_inv _ _ _ _ _ h
        | errB e =>
          dsimp only
          by_cases he : e = "Thread not found."
          · rw [if_pos he]
            exact ih _ (dlAddPost_inv _ _ _ _ _ h)
          · rw [if_neg he]
            exact dlAddPost_inv _ _ _ _ _ h
        | ok tm =>
          exact ih _
            (addThreadPosts_inv _ _ _ _ _ (dlAddPost_inv _ _ _ _ _ h))

theorem alookup_mem {β : Type} (n : Nat) :
    ∀ (l : List (Nat × β)) (v : β), alookup n l = some v → (n, v) ∈ l := by
  intro l
  induction l with
  | nil => intro v h; simp [alookup] at h
  | cons kv rest ih =>
    intro v h
    rw [alookup] at h
    by_cases hk : kv.1 = n
    · rw [if_pos hk] at h
      have hv : v = kv.2 := (Option.some_inj.mp h).symm
      subst hv
      rw [← hk]
      exact List.mem_cons_self _ _
    · rw [if_neg hk] at h
      exact List.mem_cons_of_mem _ (ih v h)

theorem alookup_isSome_iff {β : Type} (n : Nat) :
    ∀ l : List (Nat × β), (alookup n l).isSome = true ↔ n ∈ l.map Prod.fst := by
  intro l
  induction l with
  | nil => simp [alookup]
  | cons kv rest ih =>
    by_cases hk : kv.1 = n
    · simp [alookup, hk]
    · simp only [alookup, if_neg hk, List.map_cons, List.mem_cons, ih]
      constructor
      · exact Or.inr
      · rintro (rfl | h)
        · exact absurd rfl hk
        · exact h

theorem loadLookup_inv (start : Nat) (cache : List Post) :
    ∀ kv ∈ loadLookup cache start, start ≤ kv.1 ∧ (kv.2).num = kv.1 := by
  unfold loadLookup
  suffices h : ∀ m, (∀ kv ∈ m, start ≤ kv.1 ∧ (kv.2).num = kv.1) →
      ∀ kv ∈ cache.foldl
        (fun m p => if p.num < start then m else assocSet m p.num p) m,
        start ≤ kv.1 ∧ (kv.2).num = kv.1 by
    refine h [] ?_
    intro kv hkv
    simp at hkv
  induction cache with
  | nil => intro m hm; exact hm
  | cons p rest ih =>
    intro m hm
    rw [List.foldl_cons]
    by_cases hp : p.num < start
    · rw [if_pos hp]
      exact ih m hm
    · rw [if_neg hp]
      refine ih _ ?_
      intro kv hkv
      rcases mem_assocSet _ _ _ kv hkv with h1 | rfl
      · exact hm kv h1
      · exact ⟨Nat.le_of_not_lt hp, rfl⟩

theorem seedStore_inv (start : Nat) (pl : List (Nat × Post))
    (hpl : ∀ kv ∈ pl, start ≤ kv.1 ∧ (kv.2).num = kv.1) (nums : List Nat) :
    StoreInv start (seedStore pl nums) := by
  unfold seedStore
  suffices h : ∀ st, StoreInv start st →
      StoreInv start (nums.foldl (fun st i =>
        match alookup i pl with
        | some p => assocSet st i (.post p)
        | none => st) st) by
    refine h [] ?_
    intro kv hkv
    simp at hkv
  induction nums with
  | nil => intro st h; exact h
  | cons i rest ih =>
    intro st h
    rw [List.foldl_cons]
    cases hl : alookup i pl with
    | none => exact ih st h
    | some p =>
      refine ih _ ?_
      intro kv hkv
      rcases mem_assocSet _ _ _ kv hkv with h1 | rfl
      · exact h kv h1
      · have hmem := alookup_mem i pl p hl
        have hip := hpl (i, p) hmem
        exact ⟨hip.1, hip.2⟩

instance {β : Type} : IsTotal (Nat × β) (fun a b => a.1 ≤ b.1) :=
  ⟨fun a b => Nat.le_total a.1 b.1⟩

instance {β : Type} : IsTrans (Nat × β) (fun a b => a.1 ≤ b.1) :=
  ⟨fun _ _ _ h1 h2 => Nat.le_trans h1 h2⟩

theorem sortByKey_sorted {β : Type} (m : List (Nat × β)) :
    List.Sorted (fun a b : Nat × β => a.1 ≤ b.1) (sortByKey m) :=
  List.sorted_insertionSort _ m

theorem partitionCons_chain (l : List (Nat × Entry)) :
    ∀ (pn : Nat) (e : Entry), Entry.num e = pn →
      (∀ kv ∈ l, Entry.num kv.2 = kv.1) →
      List.Chain (fun a b => Entry.num b = Entry.num a + 1) e
        (partitionCons (some pn) l).1 := by
  induction l with
  | nil => intro pn e _ _; exact List.Chain.nil
  | cons kv rest ih =>
    obtain ⟨num, ev⟩ := kv
    intro pn e he hkey
    have hknum : Entry.num ev = num := hkey (num, ev) (List.mem_cons_self _ _)
    have hkeyrest : ∀ kv ∈ rest, Entry.num kv.2 = kv.1 := fun kv h =>
      hkey kv (List.mem_cons_of_mem _ h)
    by_cases hnum : num = pn + 1
    · have heq : partitionCons (some pn) ((num, ev) :: rest)
          = (ev :: (partitionCons (some num) rest).1,
             (partitionCons (some num) rest).2) := by
        simp only [partitionCons]
        rw [if_pos hnum]
      rw [heq]
      refine List.Chain.cons ?_ (ih num ev hknum hkeyrest)
      rw [hknum, hnum, he]
    · cases ev with
      | post p =>
        have heq : partitionCons (some pn) ((num, Entry.post p) :: rest)
            = ((partitionCons (some pn) rest).1,
               p :: (partitionCons (some pn) rest).2) := by
          simp only [partitionCons]
          rw [if_neg hnum]
        rw [heq]
        exact ih pn e he hkeyrest
      | exc ex =>
        have heq : partitionCons (some pn) ((num, Entry.exc ex) :: rest)
            = partitionCons (some pn) rest := by
          simp only [partitionCons]
          rw [if_neg hnum]
        rw [heq]
        exact ih pn e he hkeyrest

theorem partitionCons_none_chain (l : List (Nat × Entry))
    (hkey : ∀ kv ∈ l, Entry.num kv.2 = kv.1) :
    List.Chain' (fun a b => Entry.num b = Entry.num a + 1)
      (partitionCons none l).1 := by
  cases l with
  | nil => exact List.chain'_nil
  | cons kv rest =>
    obtain ⟨num, ev⟩ := kv
    show List.Chain _ ev (partitionCons (some num) rest).1
    exact partitionCons_chain rest num ev
      (hkey (num, ev) (List.mem_cons_self _ _))
      (fun kv h => hkey kv (List.mem_cons_of_mem _ h))

theorem interGo_newline (as : List String) :
    ∀ acc, String.intercalate.go acc "\n" as ++ "\n"
      = acc ++ "\n" ++ as.foldr (fun s r => s ++ "\n" ++ r) "" := by
  induction as with
  | nil =>
    intro acc
    show acc ++ "\n" = acc ++ "\n" ++ ""
    rw [String.append_empty]
  | cons a rest ih =>
    intro acc
    show String.intercalate.go (acc ++ "\n" ++ a) "\n" rest ++ "\n" = _
    rw [ih]
    simp [String.append_assoc]

/-- `join('\n') + '\n'` produces one line per element with a trailing
newline, for a nonempty list. -/
theorem render_lines (ss : List String) (h : ss ≠ []) :
    String.intercalate "\n" ss ++ "\n"
      = ss.foldr (fun s r => s ++ "\n" ++ r) "" := by
  cases ss with
  | nil => exact absurd rfl h
  | cons a rest =>
    show String.intercalate.go a "\n" rest ++ "\n" = _
    rw [interGo_newline, List.foldr_cons]

/-- When a run emits a chunk, the emitted lines are the committable split of
the sorted final store, they are nonempty, and the final store satisfies the
window invariant. -/
theorem downloadChunkModel_chunk_shape (m0 : Manifest)
    (cache : Option (List Post)) (oc : DlOracles) (nowTS : Nat) :
    (downloadChunkModel m0 cache oc nowTS).chunkWritten = none
    ∨ ((downloadChunkModel m0 cache oc nowTS).chunkWritten
        = some (partitionCons none (sortByKey
            (downloadChunkModel m0 cache oc nowTS).finalStore)).1
      ∧ (partitionCons none (sortByKey
            (downloadChunkModel m0 cache oc nowTS).finalStore)).1 ≠ []
      ∧ StoreInv (m0.lastDownLoaded + 1)
          (downloadChunkModel m0 cache oc nowTS).finalStore) := by
  simp only [downloadChunkModel]
  split
  · left; rfl
  · split
    · left; rfl
    · rename_i st1 hok
      have hst1 : StoreInv (m0.lastDownLoaded + 1) st1 :=
        primaryLoop_inv _ _ _ _ _ _ st1 hok
          (seedStore_inv _ _ (loadLookup_inv _ _) _)
      split
      · left; rfl
      · rename_i c0 cs hcons
        right
        refine ⟨?_, ?_, ?_⟩
        · show some (c0 :: cs) = some (partitionCons none (sortByKey _)).1
          rw [hcons]
        · show (partitionCons none (sortByKey _)).1 ≠ []
          rw [hcons]
          simp
        · show StoreInv (m0.lastDownLoaded + 1) _
          split
          · exact secondaryLoop_inv _ _ _ _ st1 hst1
          · exact hst1

/-- C1 (amended): every emitted chunk is nonempty, its records' numbers are
strictly ascending and numerically contiguous, the file renders one record
per line with a trailing newline, and the first record's number is at least
`checkpoint + 1` — equal to it exactly when the final merge store holds an
entry for `checkpoint + 1` (which the primary post fetch guarantees unless
it returns a ghost reply or a post with a different number). -/
theorem chunk_contiguity :
    ∀ (m0 : Manifest) (cache : Option (List Post)) (oc : DlOracles)
      (nowTS : Nat) (lines : List Entry),
      (downloadChunkModel m0 cache oc nowTS).chunkWritten = some lines →
      lines ≠ []
      ∧ List.Chain' (fun a b => Entry.num b = Entry.num a + 1) lines
      ∧ (∀ l0, lines.head? = some l0 →
          m0.lastDownLoaded + 1 ≤ Entry.num l0
          ∧ (Entry.num l0 = m0.lastDownLoaded + 1 ↔
            (storeGet (downloadChunkModel m0 cache oc nowTS).finalStore
              (m0.lastDownLoaded + 1)).isSome = true))
      ∧ (∀ ser, renderChunkFile ser lines
          = (lines.map ser).foldr (fun s r => s ++ "\n" ++ r) "") := by
  intro m0 cache oc nowTS lines hw
  rcases downloadChunkModel_chunk_shape m0 cache oc nowTS with h | ⟨hck, hne, hinv⟩
  · rw [h] at hw
    exact absurd hw (by simp)
  · rw [hck] at hw
    have hlines : lines = (partitionCons none (sortByKey
        (downloadChunkModel m0 cache oc nowTS).finalStore)).1 :=
      (Option.some_inj.mp hw).symm
    subst hlines
    have hperm : (sortByKey
        (downloadChunkModel m0 cache oc nowTS).finalStore).Perm
        (downloadChunkModel m0 cache oc nowTS).finalStore :=
      List.perm_insertionSort _ _
    have hkey : ∀ kv ∈ sortByKey
        (downloadChunkModel m0 cache oc nowTS).finalStore,
        Entry.num kv.2 = kv.1 := fun kv hk => (hinv kv (hperm.subset hk)).2
    have hgekey : ∀ kv ∈ sortByKey
        (downloadChunkModel m0 cache oc nowTS).finalStore,
        m0.lastDownLoaded + 1 ≤ kv.1 := fun kv hk =>
      (hinv kv (hperm.subset hk)).1
    refine ⟨hne, partitionCons_none_chain _ hkey, ?_, ?_⟩
    · intro l0 hl0
      cases hsk : sortByKey
          (downloadChunkModel m0 cache oc nowTS).finalStore with
      | nil =>
        rw [hsk] at hl0
        simp [partitionCons] at hl0
      | cons kv0 t =>
        obtain ⟨n0, e0⟩ := kv0
        rw [hsk] at hl0
        have hl0' : some e0 = some l0 := hl0
        have he0 : l0 = e0 := (Option.some_inj.mp hl0').symm
        have hmem0 : (n0, e0) ∈ sortByKey
            (downloadChunkModel m0 cache oc nowTS).finalStore := by
          rw [hsk]
          exact List.mem_cons_self _ _
        have hnum0 : Entry.num e0 = n0 := hkey _ hmem0
        have hge0 : m0.lastDownLoaded + 1 ≤ n0 := hgekey _ hmem0
        refine ⟨by rw [he0, hnum0]; exact hge0, ?_, ?_⟩
        · intro heq
          rw [he0, hnum0] at heq
          have hfs : (n0, e0) ∈
              (downloadChunkModel m0 cache oc nowTS).finalStore :=
            hperm.subset hmem0
          have hks : m0.lastDownLoaded + 1 ∈
              ((downloadChunkModel m0 cache oc nowTS).finalStore).map
                Prod.fst := by
            rw [← heq]
            exact List.mem_map_of_mem Prod.fst hfs
          exact (alookup_isSome_iff _ _).mpr hks
        · intro hsome
          have hksome : m0.lastDownLoaded + 1 ∈
              ((downloadChunkModel m0 cache oc nowTS).finalStore).map
                Prod.fst := (alookup_isSome_iff _ _).mp hsome
          rcases List.mem_map.mp hksome with ⟨kv, hkvfs, hkv1⟩
          have hkvsk : kv ∈ sortByKey
              (downloadChunkModel m0 cache oc nowTS).finalStore :=
            hperm.mem_iff.mpr hkvfs
          have hsorted := sortByKey_sorted
            (downloadChunkModel m0 cache oc nowTS).finalStore
          rw [hsk] at hsorted hkvsk
          have hmin : n0 ≤ kv.1 := by
            rcases List.mem_cons.mp hkvsk with rfl | htail
            · exact Nat.le_refl _
            · exact (List.sorted_cons.mp hsorted).1 kv htail
          rw [hkv1] at hmin
          rw [he0, hnum0]
          exact Nat.le_antisymm hmin hge0
    · intro ser
      show String.intercalate "\n" _ ++ "\n" = _
      refine render_lines _ ?_
      intro hmap
      exact hne (List.map_eq_nil_iff.mp hmap)

/-- Witness for `chunk_contiguity` on the concrete run `ocC2` (its chunk is
the single placeholder for number 1). -/
theorem chunk_contiguity_witness :
    ([Entry.exc ⟨1, "Post: not found", 50⟩] ≠ [])
    ∧ List.Chain' (fun a b => Entry.num b = Entry.num a + 1)
        [Entry.exc ⟨1, "Post: not found", 50⟩]
    ∧ (∀ l0, [Entry.exc ⟨1, "Post: not found", 50⟩].head? = some l0 →
        (0 : Nat) + 1 ≤ Entry.num l0
        ∧ (Entry.num l0 = 0 + 1 ↔
          (storeGet (downloadChunkModel ⟨0, []⟩ none ocC2 50).finalStore
            (0 + 1)).isSome = true))
    ∧ (∀ ser, renderChunkFile ser [Entry.exc ⟨1, "Post: not found", 50⟩]
        = ([Entry.exc ⟨1, "Post: not found", 50⟩].map ser).foldr
            (fun s r => s ++ "\n" ++ r) "") :=
  chunk_contiguity ⟨0, []⟩ none ocC2 50
    [Entry.exc ⟨1, "Post: not found", 50⟩] (by decide)

/-- C3 (amended): after the primary pass, if missing numbers remain the
builder runs one reduced pass against the secondary source (arch.b4k.dev,
shown recovering post 1 in the concrete run), and that is all: there is no
tertiary pass — a `downloadChunk` run never consults the archived.moe
oracles, so its outcome is invariant under arbitrarily changing them. -/
theorem secondary_pass_only :
    (∀ (m0 : Manifest) (cache : Option (List Post)) (oc : DlOracles)
        (nowTS : Nat) (p2 : Nat → ApiResp Post)
        (t2 : Nat → ApiResp ThreadMap),
        downloadChunkModel m0 cache (patchMoe oc p2 t2) nowTS
          = downloadChunkModel m0 cache oc nowTS)
    ∧ ((downloadChunkModel ⟨0, []⟩ none ocC3b 50).chunkWritten
        = some [Entry.post (pushSourceTag b4kPost1 Site.b4k)]) := by
  constructor
  · intro m0 cache oc nowTS p2 t2
    simp only [downloadChunkModel]
    rw [show (patchMoe oc p2 t2).latest = oc.latest from rfl]
    simp only [primaryLoop_patchMoe, secondaryLoop_patchMoe]
  · decide

/-! ## The upgrade scanner's output handling: reCheck.js `main` tail and the
release wrapper script (src/unnamed/part_001)

The record-wise upgrade pipeline is abstracted as a content transformation
`tr`; reCheck writes the transformed content to the random-suffix temporary
file and then renames it over the input unconditionally.  The wrapper script
hashes the raw file before and after `node reCheck.js` and re-uploads only
when the hashes differ. -/

structure RecheckFx where
  finalInput : String
  tmpLeft : Bool
  renamed : Bool
deriving DecidableEq, Repr

/-- reCheck.js `main` tail: `transformNDJSON(inputPath, outputPath, ...)`
then `await rename(outputPath, inputPath)` — no comparison guards the
rename. -/
def reCheckMainFx (tr : String → String) (orig : String) : RecheckFx :=
  let tmpContent := tr orig
  { finalInput := tmpContent, tmpLeft := false, renamed := true }

structure ReleaseOut where
  fx : RecheckFx
  reportedNoChanges : Bool
  uploaded : Bool
deriving DecidableEq, Repr

/-- The release script around one reCheck run: `HASH_BEFORE`, reCheck,
`HASH_AFTER`; equal hashes report "No changes detected" and skip the
re-upload.  `h` is the hash (sha256). -/
def releaseScan (h : String → String) (tr : String → String)
    (orig : String) : ReleaseOut :=
  let hashBefore := h orig
  let fx := reCheckMainFx tr orig
  let hashAfter := h fx.finalInput
  { fx := fx,
    reportedNoChanges := hashBefore == hashAfter,
    uploaded := !(hashBefore == hashAfter) }

/-- C7: the temporary file replaces the input unconditionally — here the
content did not change (identity transform, hashes equal, "no changes"
reported), yet the rename still happened, so "replaces the input only if the
content actually changed" fails. -/
theorem rename_unconditional :
    (releaseScan id id "x").fx.renamed = true
    ∧ (releaseScan id id "x").reportedNoChanges = true
    ∧ (releaseScan id id "x").fx.finalInput = "x" := by
  decide

/-- C7 (amended): reCheck always renames the temporary file over the input
(so the temporary file never survives and the input afterwards holds exactly
the transformed content); the hash comparison lives in the release wrapper
and only decides the reporting and the re-upload: with an injective hash it
reports "no changes" exactly when the transformation returned the input
content unchanged, in which case the input is byte-for-byte the original and
nothing is uploaded. -/
theorem recheck_replace_semantics :
    ∀ (h tr : String → String) (orig : String),
      Function.Injective h →
      (releaseScan h tr orig).fx.renamed = true
      ∧ (releaseScan h tr orig).fx.tmpLeft = false
      ∧ (releaseScan h tr orig).fx.finalInput = tr orig
      ∧ ((releaseScan h tr orig).reportedNoChanges = true ↔ tr orig = orig)
      ∧ ((releaseScan h tr orig).reportedNoChanges = true →
          (releaseScan h tr orig).fx.finalInput = orig
          ∧ (releaseScan h tr orig).uploaded = false) := by
  intro h tr orig hinj
  refine ⟨rfl, rfl, rfl, ?_, ?_⟩
  · show (h orig == h (tr orig)) = true ↔ tr orig = orig
    rw [beq_iff_eq]
    constructor
    · intro he
      exact (hinj he).symm
    · intro he
      rw [he]
  · intro hnc
    have he : tr orig = orig := by
      have : (h orig == h (tr orig)) = true := hnc
      rw [beq_iff_eq] at this
      exact (hinj this).symm
    refine ⟨he, ?_⟩
    show (!(h orig == h (tr orig))) = false
    rw [he]
    simp

/-- Witness for `recheck_replace_semantics` with the identity hash on a
content-changing transformation. -/
theorem recheck_replace_semantics_witness :
    (releaseScan id (fun s => s ++ "!") "x").fx.renamed = true
    ∧ (releaseScan id (fun s => s ++ "!") "x").fx.tmpLeft = false
    ∧ (releaseScan id (fun s => s ++ "!") "x").fx.finalInput
        = (fun s => s ++ "!") "x"
    ∧ ((releaseScan id (fun s => s ++ "!") "x").reportedNoChanges = true
        ↔ (fun s => s ++ "!") "x" = "x")
    ∧ ((releaseScan id (fun s => s ++ "!") "x").reportedNoChanges = true →
        (releaseScan id (fun s => s ++ "!") "x").fx.finalInput = "x"
        ∧ (releaseScan id (fun s => s ++ "!") "x").uploaded = false) :=
  recheck_replace_semantics id (fun s => s ++ "!") "x" (fun _ _ hab => hab)

/-! ## reCheck.js `transformNDJSON`

Byte-level model.  The input file is a byte list delivered to the scan as
arbitrary read-buffer chunks.  `JSON.parse` of a bracketed segment, the
entry transform, and `JSON.stringify` of one value are parameters
(`parseArr`, `tr`, `ser`); a run returning `none` models a thrown
`JSON.parse` error (the file transformation fails). -/

/-- The whitespace bytes the scan skips without resetting `prevWasNL`. -/
def lineWS (b : Nat) : Bool := b == 32 || b == 9 || b == 13

/-- The newline-rewriting scan over a block: `0x0A` becomes `0x2C` (a
comma) unless only whitespace has been seen since the previous newline. -/
def replaceNLGo (prev : Bool) : List Nat → List Nat
  | [] => []
  | b :: rest =>
    if b = 10 then (if prev then 10 else 44) :: replaceNLGo true rest
    else if lineWS b then b :: replaceNLGo prev rest
    else b :: replaceNLGo false rest

/-- `lastNL`: the bytes strictly before the last newline of a block and the
bytes strictly after it; `none` when the block holds no newline. -/
def lastNLSplit : List Nat → Option (List Nat × List Nat)
  | [] => none
  | b :: rest =>
    match lastNLSplit rest with
    | some pr => some (b :: pr.1, pr.2)
    | none => if b = 10 then some ([], rest) else none

/-- `Array.prototype.join(sep)`. -/
def sepJoin (sep : List Nat) : List (List Nat) → List Nat
  | [] => []
  | [t] => t
  | t :: ts => t ++ sep ++ sepJoin sep ts

/-- One `for await` iteration body: concatenate the leftover with the new
buffer, rewrite newlines, parse everything up to the last newline as one
JSON array, write the transformed entries joined with newlines plus a final
newline, keep the bytes after the last newline as the new leftover. -/
def tChunkStep {V : Type} (parseArr : List Nat → Option (List V)) (tr : V → V)
    (ser : V → List Nat) (st : List Nat × List Nat) (buf : List Nat) :
    Option (List Nat × List Nat) :=
  let data := st.2 ++ buf
  match lastNLSplit data with
  | none => some (st.1, data)
  | some pr =>
    match parseArr (91 :: replaceNLGo false pr.1 ++ [93]) with
    | none => none
    | some entries =>
      some (st.1 ++ sepJoin [10] ((entries.map tr).map ser) ++ [10], pr.2)

/-- The after-loop leftover handling, including the `newEntries.length > 0`
guard that only exists there. -/
def tFlush {V : Type} (parseArr : List Nat → Option (List V)) (tr : V → V)
    (ser : V → List Nat) (st : List Nat × List Nat) : Option (List Nat) :=
  if st.2.isEmpty then some st.1
  else
    match parseArr (91 :: (match lastNLSplit st.2 with
        | none => replaceNLGo false st.2
        | some pr => replaceNLGo false pr.1) ++ [93]) with
    | none => none
    | some entries =>
      if entries.isEmpty then some st.1
      else some (st.1 ++ sepJoin [10] ((entries.map tr).map ser) ++ [10])

def transformNDJSONModel {V : Type} (parseArr : List Nat → Option (List V))
    (tr : V → V) (ser : V → List Nat) (chunks : List (List Nat)) :
    Option (List Nat) :=
  match chunks.foldl (fun acc buf =>
      match acc with
      | none => none
      | some st => tChunkStep parseArr tr ser st buf) (some ([], [])) with
  | none => none
  | some st => tFlush parseArr tr ser st

/-! A concrete instantiation: entries are nonnegative decimal integers —
enough to exercise the scan, since the scan itself never inspects entry
syntax beyond newlines and whitespace. -/

def isDigit (b : Nat) : Bool := 48 ≤ b && b ≤ 57

def jsonWS (b : Nat) : Bool := b == 32 || b == 9 || b == 13 || b == 10

def parseNatTok (bs : List Nat) : Option Nat :=
  let core := ((bs.dropWhile jsonWS).reverse.dropWhile jsonWS).reverse
  if core.isEmpty then none
  else if core.all isDigit then
    some (core.foldl (fun a b => a * 10 + (b - 48)) 0)
  else none

/-- `JSON.parse` restricted to arrays of nonnegative integers: brackets,
optional whitespace, comma-separated number tokens. -/
def parseArrNat (bs : List Nat) : Option (List Nat) :=
  match bs with
  | 91 :: rest =>
    match rest.getLast? with
    | some 93 =>
      let content := rest.dropLast
      if content.all jsonWS then some []
      else (content.splitOn 44).mapM parseNatTok
    | _ => none
  | _ => none

def serNat (n : Nat) : List Nat := (Nat.toDigits 10 n).map Char.toNat

/-- C10: the byte stream `"1\n\n2\n"` (an empty line between two records):
processed as one buffer the run succeeds and outputs `"1\n2\n"`, but split
into the buffers `"1\n"` and `"\n2\n"` the second scan starts at a newline
with `prevWasNL = false`, rewrites it to a comma, and `JSON.parse("[,2]")`
throws — the outcome depends on the read-buffer chunking. -/
theorem transformNDJSON_split_dependent :
    transformNDJSONModel parseArrNat id serNat [[49, 10, 10, 50, 10]]
        = some [49, 10, 50, 10]
    ∧ transformNDJSONModel parseArrNat id serNat [[49, 10], [10, 50, 10]]
        = none
    ∧ List.flatten [[49, 10, 10, 50, 10]]
        = List.flatten [[49, 10], [10, 50, 10]] := by
  decide

/-! Scan lemmas for the amended C10 statement.  A "record text" is a line
with no newline byte and at least one non-whitespace byte. -/

theorem lineWS_ne_ten (b : Nat) (h : lineWS b = true) : b ≠ 10 := by
  intro hb
  subst hb
  simp [lineWS] at h

theorem replaceNLGo_ws (t : List Nat) (h : ∀ b ∈ t, lineWS b = true) :
    ∀ prev rest, replaceNLGo prev (t ++ rest) = t ++ replaceNLGo prev rest := by
  induction t with
  | nil => intro prev rest; rfl
  | cons b t' ih =>
    intro prev rest
    have hb : lineWS b = true := h b (List.mem_cons_self _ _)
    have hb10 : ¬ b = 10 := lineWS_ne_ten b hb
    show replaceNLGo prev (b :: (t' ++ rest)) = _
    rw [replaceNLGo, if_neg hb10, if_pos hb,
      ih (fun c hc => h c (List.mem_cons_of_mem _ hc)) prev rest]
    rfl

theorem replaceNLGo_line (t : List Nat) :
    (∀ b ∈ t, b ≠ 10) → (∃ b ∈ t, lineWS b = false) →
    ∀ prev rest, replaceNLGo prev (t ++ rest) = t ++ replaceNLGo false rest := by
  induction t with
  | nil =>
    rintro _ ⟨b, hb, _⟩ _ _
    exact absurd hb (by simp)
  | cons b t' ih =>
    intro h10 hnw prev rest
    have hb10 : ¬ b = 10 := h10 b (List.mem_cons_self _ _)
    have h10' : ∀ c ∈ t', c ≠ 10 := fun c hc => h10 c (List.mem_cons_of_mem _ hc)
    show replaceNLGo prev (b :: (t' ++ rest)) = _
    rw [replaceNLGo, if_neg hb10]
    by_cases hb : lineWS b = true
    · rw [if_pos hb]
      have hnw' : ∃ c ∈ t', lineWS c = false := by
        rcases hnw with ⟨c, hc, hcw⟩
        rcases List.mem_cons.mp hc with rfl | hc'
        · rw [hb] at hcw
          exact absurd hcw (by simp)
        · exact ⟨c, hc', hcw⟩
      rw [ih h10' hnw' prev rest]
      rfl
    · rw [if_neg hb]
      by_cases hex : ∃ c ∈ t', lineWS c = false
      · rw [ih h10' hex false rest]
        rfl
      · have hall : ∀ c ∈ t', lineWS c = true := by
          intro c hc
          cases hcw : lineWS c with
          | true => rfl
          | false => exact absurd ⟨c, hc, hcw⟩ hex
        rw [replaceNLGo_ws t' hall false rest]
        rfl

theorem replaceNLGo_sepJoin :
    ∀ (ts : List (List Nat)), (∀ t ∈ ts, ∀ b ∈ t, b ≠ 10) →
      (∀ t ∈ ts, ∃ b ∈ t, lineWS b = false) →
      ∀ prev, replaceNLGo prev (sepJoin [10] ts) = sepJoin [44] ts := by
  intro ts
  induction ts with
  | nil => intro _ _ prev; rfl
  | cons t ts' ih =>
    intro h10 hnw prev
    have ht10 : ∀ b ∈ t, b ≠ 10 := h10 t (List.mem_cons_self _ _)
    have htnw : ∃ b ∈ t, lineWS b = false := hnw t (List.mem_cons_self _ _)
    cases ts' with
    | nil =>
      show replaceNLGo prev t = t
      have hline := replaceNLGo_line t ht10 htnw prev []
      simpa [replaceNLGo] using hline
    | cons t2 rest =>
      rw [show sepJoin [10] (t :: t2 :: rest)
        = t ++ [10] ++ sepJoin [10] (t2 :: rest) from rfl]
      rw [show sepJoin [44] (t :: t2 :: rest)
        = t ++ [44] ++ sepJoin [44] (t2 :: rest) from rfl]
      rw [List.append_assoc t [10] _, List.append_assoc t [44] _]
      rw [replaceNLGo_line t ht10 htnw prev]
      have h2 : replaceNLGo false ([10] ++ sepJoin [10] (t2 :: rest))
          = [44] ++ replaceNLGo true (sepJoin [10] (t2 :: rest)) := rfl
      rw [h2, ih (fun u hu => h10 u (List.mem_cons_of_mem _ hu))
        (fun u hu => hnw u (List.mem_cons_of_mem _ hu)) true]

theorem lastNLSplit_eq_none (l : List Nat) (h : 10 ∉ l) :
    lastNLSplit l = none := by
  induction l with
  | nil => rfl
  | cons b rest ih =>
    have hb : ¬ b = 10 := fun hb => h (hb ▸ List.mem_cons_self _ _)
    have hrest : 10 ∉ rest := fun hr => h (List.mem_cons_of_mem _ hr)
    rw [lastNLSplit, ih hrest, if_neg hb]

theorem lastNLSplit_append_no10 (t : List Nat) (h : 10 ∉ t) (rest : List Nat) :
    lastNLSplit (t ++ rest)
      = match lastNLSplit rest with
        | some pr => some (t ++ pr.1, pr.2)
        | none => none := by
  induction t with
  | nil =>
    cases hr : lastNLSplit rest with
    | none => simp [hr]
    | some pr => simp [hr]
  | cons b t' ih =>
    have hb : ¬ b = 10 := fun hb => h (hb ▸ List.mem_cons_self _ _)
    have ht' : 10 ∉ t' := fun hr => h (List.mem_cons_of_mem _ hr)
    show lastNLSplit (b :: (t' ++ rest)) = _
    rw [lastNLSplit, ih ht']
    cases hr : lastNLSplit rest with
    | none => simp [if_neg hb]
    | some pr => simp

theorem lastNLSplit_flatten :
    ∀ (ts : List (List Nat)) (partial0 : List Nat),
      (∀ t ∈ ts, 10 ∉ t) → 10 ∉ partial0 → ts ≠ [] →
      lastNLSplit (List.flatten (ts.map (fun t => t ++ [10])) ++ partial0)
        = some (sepJoin [10] ts, partial0) := by
  intro ts
  induction ts with
  | nil => intro partial0 _ _ hne; exact absurd rfl hne
  | cons t ts' ih =>
    intro partial0 hts hp _
    have ht : 10 ∉ t := by
      intro hmem
      exact hts t (List.mem_cons_self _ _) hmem
    have hts' : ∀ u ∈ ts', 10 ∉ u := fun u hu => hts u (List.mem_cons_of_mem _ hu)
    have hshape : List.flatten ((t :: ts').map (fun u => u ++ [10])) ++ partial0
        = t ++ (10 :: (List.flatten (ts'.map (fun u => u ++ [10])) ++ partial0)) := by
      simp
    rw [hshape, lastNLSplit_append_no10 t ht]
    cases ts' with
    | nil =>
      simp only [List.map_nil, List.flatten_nil, List.nil_append]
      rw [lastNLSplit, lastNLSplit_eq_none partial0 hp]
      simp [sepJoin]
    | cons t2 rest =>
      rw [lastNLSplit, ih partial0 hts' hp (by simp)]
      show some (t ++ 10 :: sepJoin [10] (t2 :: rest), partial0)
        = some (sepJoin [10] (t :: t2 :: rest), partial0)
      rw [show sepJoin [10] (t :: t2 :: rest)
        = t ++ [10] ++ sepJoin [10] (t2 :: rest) from rfl]
      simp

theorem sepJoin_newline_flatten :
    ∀ (es : List (List Nat)), es ≠ [] →
      sepJoin [10] es ++ [10] = List.flatten (es.map (fun e => e ++ [10])) := by
  intro es
  induction es with
  | nil => intro h; exact absurd rfl h
  | cons e es' ih =>
    intro _
    cases es' with
    | nil => simp [sepJoin]
    | cons e2 rest =>
      rw [show sepJoin [10] (e :: e2 :: rest)
        = e ++ [10] ++ sepJoin [10] (e2 :: rest) from rfl]
      rw [List.append_assoc, List.append_assoc, ih (by simp)]
      simp

theorem flatten_records_empty (us : List (List Nat)) (l : List Nat)
    (h10 : 10 ∉ l) (heq : l = List.flatten (us.map (fun t => t ++ [10]))) :
    us = [] ∧ l = [] := by
  cases us with
  | nil =>
    simp at heq
    exact ⟨rfl, heq⟩
  | cons u us' =>
    exfalso
    apply h10
    rw [heq]
    simp

theorem sepJoin_cons (sep t : List Nat) (l : List (List Nat)) (h : l ≠ []) :
    sepJoin sep (t :: l) = t ++ sep ++ sepJoin sep l := by
  cases l with
  | nil => exact absurd rfl h
  | cons u rest => rfl

theorem lastNLSplit_none_no10 (l : List Nat) : lastNLSplit l = none → 10 ∉ l := by
  induction l with
  | nil => intro _; simp
  | cons b rest ih =>
    intro h
    rw [lastNLSplit] at h
    cases hr : lastNLSplit rest with
    | some pr =>
      rw [hr] at h
      simp at h
    | none =>
      rw [hr] at h
      have h' : (if b = 10 then some ([], rest)
          else none : Option (List Nat × List Nat)) = none := h
      by_cases hb : b = 10
      · rw [if_pos hb] at h'
        exact absurd h' (by simp)
      · intro hmem
        rcases List.mem_cons.mp hmem with heq | hmem'
        · exact hb heq.symm
        · exact ih hr hmem'

theorem lastNLSplit_some_decomp (l : List Nat) :
    ∀ a b, lastNLSplit l = some (a, b) → l = a ++ 10 :: b ∧ 10 ∉ b := by
  induction l with
  | nil =>
    intro a b h
    exact absurd h (by simp [lastNLSplit])
  | cons c rest ih =>
    intro a b h
    rw [lastNLSplit] at h
    cases hr : lastNLSplit rest with
    | some pr =>
      rw [hr] at h
      have h' : some (c :: pr.1, pr.2) = some (a, b) := h
      simp only [Option.some.injEq, Prod.mk.injEq] at h'
      obtain ⟨ha, hb⟩ := h'
      have hrec := ih pr.1 pr.2 hr
      constructor
      · rw [← ha, ← hb, hrec.1]
        rfl
      · rw [← hb]
        exact hrec.2
    | none =>
      rw [hr] at h
      have h' : (if c = 10 then some ([], rest)
          else none : Option (List Nat × List Nat)) = some (a, b) := h
      by_cases hc : c = 10
      · rw [if_pos hc] at h'
        simp only [Option.some.injEq, Prod.mk.injEq] at h'
        obtain ⟨ha, hb⟩ := h'
        constructor
        · rw [← ha, ← hb, hc]
          rfl
        · rw [← hb]
          exact lastNLSplit_none_no10 rest hr
      · rw [if_neg hc] at h'
        exact absurd h' (by simp)

theorem chunk_boundary_decomp :
    ∀ (ts : List (List Nat)), (∀ t ∈ ts, 10 ∉ t) →
    ∀ (p s a b : List Nat),
      p ++ s = List.flatten (ts.map (fun t => t ++ [10])) →
      lastNLSplit p = some (a, b) →
      ∃ k, 1 ≤ k ∧ k ≤ ts.length ∧
        a = sepJoin [10] (ts.take k) ∧
        b ++ s = List.flatten ((ts.drop k).map (fun t => t ++ [10])) := by
  intro ts
  induction ts with
  | nil =>
    intro _ p s a b hps hsplit
    have h0 : p = [] ∧ s = [] := by simpa using hps
    rw [h0.1] at hsplit
    exact absurd hsplit (by simp [lastNLSplit])
  | cons t ts' ih =>
    intro h10 p s a b hps hsplit
    have ht10 : 10 ∉ t := h10 t (List.mem_cons_self _ _)
    have hts' : ∀ u ∈ ts', 10 ∉ u := fun u hu => h10 u (List.mem_cons_of_mem _ hu)
    have hps2 : p ++ s = t ++ (10 :: List.flatten (ts'.map (fun u => u ++ [10]))) := by
      rw [hps]
      simp
    rcases Nat.lt_or_ge p.length (t.length + 1) with hlt | hge
    · exfalso
      have hple : p.length ≤ t.length := Nat.lt_succ_iff.mp hlt
      have hpt : p = t.take p.length := by
        have h1 : (p ++ s).take p.length = p := by
          rw [List.take_append_of_le_length (le_refl p.length), List.take_length]
        have h2 : (t ++ (10 :: List.flatten (ts'.map (fun u => u ++ [10])))).take
            p.length = t.take p.length := List.take_append_of_le_length hple
        rw [← hps2, h1] at h2
        exact h2
      have hdec := lastNLSplit_some_decomp p a b hsplit
      have h10p : 10 ∈ p := by
        rw [hdec.1]
        exact List.mem_append_right _ (List.mem_cons_self _ _)
      rw [hpt] at h10p
      exact ht10 (List.take_subset _ _ h10p)
    · have htake : p.take (t.length + 1) = t ++ [10] := by
        have h2 : (t ++ (10 :: List.flatten (ts'.map (fun u => u ++ [10])))).take
            (t.length + 1) = t ++ [10] := by
          rw [List.take_append_eq_append_take, List.take_of_length_le (Nat.le_succ _),
            Nat.add_sub_cancel_left]
          rfl
        rw [← hps2, List.take_append_of_le_length hge] at h2
        exact h2
      have hp_decomp : p = (t ++ [10]) ++ p.drop (t.length + 1) := by
        conv_lhs => rw [← List.take_append_drop (t.length + 1) p]
        rw [htake]
      have hX : p.drop (t.length + 1) ++ s
          = List.flatten (ts'.map (fun u => u ++ [10])) := by
        have h3 : (t ++ [10]) ++ (p.drop (t.length + 1) ++ s)
            = (t ++ [10]) ++ List.flatten (ts'.map (fun u => u ++ [10])) := by
          rw [← List.append_assoc, ← hp_decomp, hps2]
          simp
        exact List.append_cancel_left h3
      have hsplit2 : lastNLSplit p
          = match lastNLSplit (10 :: p.drop (t.length + 1)) with
            | some pr => some (t ++ pr.1, pr.2)
            | none => none := by
        conv_lhs => rw [hp_decomp, List.append_assoc]
        exact lastNLSplit_append_no10 t ht10 ([10] ++ p.drop (t.length + 1))
      cases hp' : lastNLSplit (p.drop (t.length + 1)) with
      | none =>
        have hs10 : lastNLSplit (10 :: p.drop (t.length + 1))
            = some ([], p.drop (t.length + 1)) := by
          have hu : lastNLSplit (10 :: p.drop (t.length + 1))
              = match lastNLSplit (p.drop (t.length + 1)) with
                | some pr => some (10 :: pr.1, pr.2)
                | none => if (10 : Nat) = 10 then some ([], p.drop (t.length + 1))
                    else none := rfl
          rw [hu, hp']
          simp
        rw [hs10] at hsplit2
        have hsplit3 : lastNLSplit p = some (t ++ [], p.drop (t.length + 1)) :=
          hsplit2
        have h4 := hsplit.symm.trans hsplit3
        simp only [Option.some.injEq, Prod.mk.injEq, List.append_nil] at h4
        obtain ⟨ha, hb⟩ := h4
        refine ⟨1, le_refl 1, by simp, ?_, ?_⟩
        · rw [ha]
          rfl
        · rw [hb]
          exact hX
      | some pr2 =>
        have hs10 : lastNLSplit (10 :: p.drop (t.length + 1))
            = some (10 :: pr2.1, pr2.2) := by
          have hu : lastNLSplit (10 :: p.drop (t.length + 1))
              = match lastNLSplit (p.drop (t.length + 1)) with
                | some pr => some (10 :: pr.1, pr.2)
                | none => if (10 : Nat) = 10 then some ([], p.drop (t.length + 1))
                    else none := rfl
          rw [hu, hp']
        rw [hs10] at hsplit2
        have hsplit3 : lastNLSplit p = some (t ++ 10 :: pr2.1, pr2.2) := hsplit2
        have h4 := hsplit.symm.trans hsplit3
        simp only [Option.some.injEq, Prod.mk.injEq] at h4
        obtain ⟨ha, hb⟩ := h4
        obtain ⟨k', hk'1, hk'2, ha', hb'⟩ := ih hts' (p.drop (t.length + 1)) s
          pr2.1 pr2.2 hX hp'
        refine ⟨k' + 1, by omega, by simp only [List.length_cons]; omega, ?_, ?_⟩
        · have htk : ts'.take k' ≠ [] := by
            have hpos : 0 < (ts'.take k').length := by
              rw [List.length_take]
              omega
            exact List.ne_nil_of_length_pos hpos
          rw [ha, ha', List.take_succ_cons, sepJoin_cons _ _ _ htk]
          simp
        · rw [hb, List.drop_succ_cons]
          exact hb'

theorem tLoop_correct {V : Type} (parseArr : List Nat → Option (List V))
    (tr : V → V) (ser : V → List Nat)
    (records : List (List Nat)) (vals : List V)
    (hlen : records.length = vals.length)
    (hrec10 : ∀ t ∈ records, 10 ∉ t)
    (hrecnw : ∀ t ∈ records, ∃ b ∈ t, lineWS b = false)
    (HP : ∀ i k, k ≠ 0 → i + k ≤ records.length →
      parseArr (91 :: sepJoin [44] ((records.drop i).take k) ++ [93])
        = some ((vals.drop i).take k)) :
    ∀ (chunks : List (List Nat)) (i : Nat) (out left : List Nat),
      i ≤ records.length → 10 ∉ left →
      left ++ chunks.flatten
        = List.flatten ((records.drop i).map (fun t => t ++ [10])) →
      (match chunks.foldl (fun acc buf =>
            match acc with
            | none => none
            | some st => tChunkStep parseArr tr ser st buf) (some (out, left)) with
        | none => none
        | some st => tFlush parseArr tr ser st)
        = some (out ++ List.flatten
            ((vals.drop i).map (fun v => ser (tr v) ++ [10]))) := by
  intro chunks
  induction chunks with
  | nil =>
    intro i out left hi hleft hinv
    simp only [List.foldl_nil]
    show tFlush parseArr tr ser (out, left)
      = some (out ++ List.flatten ((vals.drop i).map (fun v => ser (tr v) ++ [10])))
    have hleft_eq : left
        = List.flatten ((records.drop i).map (fun t => t ++ [10])) := by
      simpa using hinv
    obtain ⟨hrd, hlnil⟩ := flatten_records_empty (records.drop i) left hleft hleft_eq
    have hvd : vals.drop i = [] := by
      apply List.drop_eq_nil_of_le
      rw [← hlen]
      exact List.drop_eq_nil_iff.mp hrd
    rw [hlnil, hvd]
    simp [tFlush]
  | cons buf chunks' ih =>
    intro i out left hi hleft hinv
    have hinv' : (left ++ buf) ++ chunks'.flatten
        = List.flatten ((records.drop i).map (fun t => t ++ [10])) := by
      rw [List.append_assoc]
      simpa using hinv
    have hred : ((buf :: chunks').foldl (fun acc b' =>
          match acc with
          | none => none
          | some st => tChunkStep parseArr tr ser st b') (some (out, left)))
        = chunks'.foldl (fun acc b' =>
          match acc with
          | none => none
          | some st => tChunkStep parseArr tr ser st b')
          (tChunkStep parseArr tr ser (out, left) buf) := rfl
    rw [hred]
    cases hsplit : lastNLSplit (left ++ buf) with
    | none =>
      have hstep : tChunkStep parseArr tr ser (out, left) buf
          = some (out, left ++ buf) := by
        simp [tChunkStep, hsplit]
      rw [hstep]
      exact ih i out (left ++ buf) hi (lastNLSplit_none_no10 _ hsplit) hinv'
    | some pr =>
      obtain ⟨a, b⟩ := pr
      have hdec := lastNLSplit_some_decomp (left ++ buf) a b hsplit
      obtain ⟨k, hk1, hk2, ha, hb⟩ := chunk_boundary_decomp (records.drop i)
        (fun t ht => hrec10 t (List.drop_subset _ _ ht))
        (left ++ buf) chunks'.flatten a b hinv' hsplit
      have hkle : i + k ≤ records.length := by
        rw [List.length_drop] at hk2
        omega
      have hrepl : replaceNLGo false a = sepJoin [44] ((records.drop i).take k) := by
        rw [ha]
        exact replaceNLGo_sepJoin ((records.drop i).take k)
          (fun t ht bb hbb hbe =>
            hrec10 t (List.drop_subset _ _ (List.take_subset _ _ ht)) (hbe ▸ hbb))
          (fun t ht => hrecnw t (List.drop_subset _ _ (List.take_subset _ _ ht)))
          false
      have hparse := HP i k (by omega) hkle
      have hstep : tChunkStep parseArr tr ser (out, left) buf
          = some (out ++ sepJoin [10] ((((vals.drop i).take k).map tr).map ser)
              ++ [10], b) := by
        have hu : tChunkStep parseArr tr ser (out, left) buf
            = match parseArr (91 :: replaceNLGo false a ++ [93]) with
              | none => none
              | some entries =>
                some (out ++ sepJoin [10] ((entries.map tr).map ser) ++ [10], b) := by
          show (match lastNLSplit (left ++ buf) with
            | none => some (out, left ++ buf)
            | some pr =>
              match parseArr (91 :: replaceNLGo false pr.1 ++ [93]) with
              | none => none
              | some entries =>
                some (out ++ sepJoin [10] ((entries.map tr).map ser) ++ [10], pr.2)) = _
          rw [hsplit]
        rw [hu, hrepl, hparse]
      rw [hstep]
      have hdd : (records.drop i).drop k = records.drop (i + k) := by
        rw [List.drop_drop, Nat.add_comm]
      have hb2 : b ++ chunks'.flatten
          = List.flatten ((records.drop (i + k)).map (fun t => t ++ [10])) := by
        rw [← hdd]
        exact hb
      have hmain := ih (i + k)
        (out ++ sepJoin [10] ((((vals.drop i).take k).map tr).map ser) ++ [10]) b
        hkle hdec.2 hb2
      rw [hmain]
      congr 1
      have hlen2 : 0 < ((vals.drop i).take k).length := by
        rw [List.length_take, List.length_drop, ← hlen]
        omega
      have htk_ne : ((((vals.drop i).take k).map tr).map ser) ≠ [] := by
        have hpos : 0 < (((((vals.drop i).take k).map tr).map ser)).length := by
          simp only [List.length_map]
          exact hlen2
        exact List.ne_nil_of_length_pos hpos
      have hmm : (((((vals.drop i).take k).map tr).map ser)).map (fun e => e ++ [10])
          = ((vals.drop i).take k).map (fun v => ser (tr v) ++ [10]) := by
        rw [List.map_map, List.map_map]
        rfl
      have hvdd : (vals.drop i).drop k = vals.drop (i + k) := by
        rw [List.drop_drop, Nat.add_comm]
      have hkey : List.flatten ((vals.drop i).map (fun v => ser (tr v) ++ [10]))
          = (sepJoin [10] ((((vals.drop i).take k).map tr).map ser) ++ [10])
            ++ List.flatten ((vals.drop (i + k)).map (fun v => ser (tr v) ++ [10])) := by
        rw [sepJoin_newline_flatten _ htk_ne, hmm, ← hvdd,
          ← List.flatten_append, ← List.map_append, List.take_append_drop]
      rw [hkey]
      simp [List.append_assoc]

/-- C10: the NDJSON transformer is chunking-independent only on inputs whose
every line is a complete record (no interior newline, at least one
non-whitespace byte).  Under that proviso — together with the parser/value
correspondence `HP` tying `JSON.parse` of a bracketed comma-joined window of
record texts to the corresponding window of values — every way of cutting the
input byte stream into read-buffer chunks makes `transformNDJSON` succeed and
write exactly one output line per input value, in input order: the
serialization of the transform applied to that value.  (The unqualified claim,
with empty lines allowed, is refuted by `transformNDJSON_split_dependent`:
an empty line makes the outcome depend on the chunk boundaries.) -/
theorem transformNDJSON_split_invariant {V : Type}
    (parseArr : List Nat → Option (List V)) (tr : V → V) (ser : V → List Nat)
    (records : List (List Nat)) (vals : List V)
    (hlen : records.length = vals.length)
    (hrec10 : ∀ t ∈ records, 10 ∉ t)
    (hrecnw : ∀ t ∈ records, ∃ b ∈ t, lineWS b = false)
    (HP : ∀ i k, k ≠ 0 → i + k ≤ records.length →
      parseArr (91 :: sepJoin [44] ((records.drop i).take k) ++ [93])
        = some ((vals.drop i).take k))
    (chunks : List (List Nat))
    (hchunks : chunks.flatten
      = List.flatten (records.map (fun t => t ++ [10]))) :
    transformNDJSONModel parseArr tr ser chunks
      = some (List.flatten (vals.map (fun v => ser (tr v) ++ [10]))) := by
  have h := tLoop_correct parseArr tr ser records vals hlen hrec10 hrecnw HP
    chunks 0 [] [] (Nat.zero_le _) (by simp) (by simpa using hchunks)
  simpa [transformNDJSONModel] using h

/-- Witness for C10: the two-record stream `"1\n2\n"` cut into the chunks
`"1\n"` and `"2\n"`, with the integer-array parser, the identity transform
and decimal serialization, yields exactly `"1\n2\n"`. -/
theorem transformNDJSON_split_invariant_witness :
    transformNDJSONModel parseArrNat id serNat [[49, 10], [50, 10]]
      = some [49, 10, 50, 10] := by
  have h := transformNDJSON_split_invariant parseArrNat id serNat
    [[49], [50]] [1, 2] rfl (by decide) (by decide)
    (by
      intro i k hk hik
      have hk1 : 1 ≤ k := Nat.one_le_iff_ne_zero.mpr hk
      have h2 : i + k ≤ 2 := hik
      have hk2 : k ≤ 2 := by omega
      have hi1 : i ≤ 1 := by omega
      interval_cases i <;> interval_cases k <;> decide)
    [[49, 10], [50, 10]] (by decide)
  exact h.trans (by decide)

end DMB
